import Mathlib

/-! # FLINT: `aprcl/unity_zp_sqr.c`, `fmpq_mat/get_fmpz_mat_colwise.c`,
`fmpz_mat/randajtai.c` and `fmpz_factor/factor_si.c`

A shallow embedding of the squaring routines of the cyclotomic ring
`Z[zeta]/(n)`, of the column-wise clearing of denominators of a rational
matrix, of the generator of Ajtai matrices and of the factorisation of a
signed word, followed by the properties proved about them.

Conventions.
* An `fmpz` is an `Int`; a `ulong` is a `Nat` below `2 ^ 64`, decrement wraps.
* A coefficient array is a `List Int`; an access outside the list is undefined
  behaviour in C and makes the embedded code return `none`.
* A loop that may fail to terminate takes a fuel argument.
-/

namespace Flint

/-! ## Machine words -/

/-- Number of values of a `ulong`. -/
def ulong_size : Nat := 2 ^ 64

/-- The C expression `i--` on a `ulong`: decrement modulo `2 ^ 64`. -/
def ulong_dec (i : Nat) : Nat := (i + (ulong_size - 1)) % ulong_size

/-- Conversion of a signed length minus one to `ulong`, as in
`i = f->poly->length - 1`. -/
def ulong_of_pred (len : Nat) : Nat := (len + (ulong_size - 1)) % ulong_size

/-- Modelled from the spec: `n_pow` (ulong_extras, absent from the sources at
hand) is the power `p ^ exp` computed in `ulong` arithmetic, the `p^k` of the
spec. -/
def n_pow (p e : Nat) : Nat := (p ^ e) % ulong_size

/-! ## Ring elements -/

/-- The C struct `unity_zp`: the polynomial `poly` (its coefficients, the list
length being `poly->length`), the prime `p`, the exponent `exp`, and the
modulus `n`. -/
structure unity_zp where
  poly : List Int
  p : Nat
  exp : Nat
  n : Int
deriving DecidableEq

/-! ## Polynomial squaring modulo `n` -/

/-- Coefficient-wise sum of two coefficient lists, the shorter one padded
with zeros. -/
def poly_add : List Int → List Int → List Int
  | [], bs => bs
  | as, [] => as
  | a :: as, b :: bs => (a + b) :: poly_add as bs

/-- Full convolution of two coefficient lists (schoolbook product). -/
def poly_mul : List Int → List Int → List Int
  | [], _ => []
  | a :: as, bs => poly_add (bs.map (fun b => a * b)) (0 :: poly_mul as bs)

/-- Strip the trailing zero coefficients (`_fmpz_mod_poly_normalise`). -/
def poly_normalise (c : List Int) : List Int :=
  (c.reverse.dropWhile (fun x => decide (x = 0))).reverse

/-- Modelled from the spec: `fmpz_mod_poly_sqr` (absent from the sources at
hand) computes the full convolution of the coefficient sequence with itself,
each entry reduced modulo `n`, in normalised form (no trailing zero, so that
length `0` is the zero polynomial). -/
def fmpz_mod_poly_sqr (n : Int) (g : List Int) : List Int :=
  poly_normalise ((poly_mul g g).map (fun x => x % n))

/-! ## The fold loop of `unity_zp_sqr` -/

/-- Loop state of the `for` loop of `unity_zp_sqr`: the `ulong` index `i` and
the coefficient array `f->poly->coeffs`. -/
structure FoldState where
  i : Nat
  coeffs : List Int
deriving DecidableEq

/-- One execution of the loop body followed by `i--`:
```
fmpz_add(coeffs + i - p, coeffs + i - p, coeffs + i);
fmpz_set_ui(coeffs + i, 0);
if (fmpz_cmp(coeffs + i - p, n) >= 0)
    fmpz_sub(coeffs + i - p, coeffs + i - p, n);
```
The body is entered with `i >= P`, so `i - P` does not wrap.  Both accessed
cells lie in the array exactly when `i < length`; otherwise the access is
undefined and the result is `none`. -/
def fold_body (n : Int) (P : Nat) (s : FoldState) : Option FoldState :=
  if s.i < s.coeffs.length then
    let c1 := s.coeffs.set (s.i - P) (s.coeffs.getD (s.i - P) 0 + s.coeffs.getD s.i 0)
    let c2 := c1.set s.i 0
    let c3 := if n ≤ c2.getD (s.i - P) 0 then
        c2.set (s.i - P) (c2.getD (s.i - P) 0 - n)
      else c2
    some { i := ulong_dec s.i, coeffs := c3 }
  else none

/-- The loop `for (...; i >= p; i--) body`, started in state `s`.  Returns the
state in which the guard `i >= p` fails, together with the list of the
values of `i` with which the body was executed, in execution order.  `none`
when an access was undefined or the fuel ran out. -/
def fold_loop (n : Int) (P : Nat) : Nat → FoldState → Option (FoldState × List Nat)
  | 0, _ => none
  | fuel + 1, s =>
    if P ≤ s.i then
      match fold_body n P s with
      | none => none
      | some s1 =>
        match fold_loop n P fuel s1 with
        | none => none
        | some (s2, tr) => some (s2, s.i :: tr)
    else some (s, [])

/-- The fold loop of `unity_zp_sqr` on a product buffer `c` of length at least
one: `i` starts at `length - 1`. -/
def fold (n : Int) (P : Nat) (fuel : Nat) (c : List Int) : Option (FoldState × List Nat) :=
  fold_loop n P fuel { i := ulong_of_pred c.length, coeffs := c }

/-! ## `unity_zp_sqr` -/

/-- What `unity_zp_sqr` did after the polynomial squaring: a fold iteration
with index `i`, or the call of `_unity_zp_reduce_cyclotomic`. -/
inductive SqrEvent where
  | fold_iteration (i : Nat)
  | reduce_cyclotomic
deriving DecidableEq

/-- The function `unity_zp_sqr(f, g)` on the values of `f` and `g` (which may
be the same element: `fmpz_mod_poly_sqr` reads `g->poly` before `f->poly` is
written).  `reduce` is `_unity_zp_reduce_cyclotomic`, absent from the sources
at hand.  Returns the new value of `f` and the events that took place. -/
def unity_zp_sqr_run (reduce : unity_zp → unity_zp) (fuel : Nat) (f g : unity_zp) :
    Option (unity_zp × List SqrEvent) :=
  let c := fmpz_mod_poly_sqr f.n g.poly
  if c.length = 0 then
    some ({ f with poly := c }, [])
  else
    match fold f.n (n_pow f.p f.exp) fuel c with
    | none => none
    | some (s, tr) =>
      some (reduce { f with poly := s.coeffs },
        tr.map SqrEvent.fold_iteration ++ [SqrEvent.reduce_cyclotomic])

/-! ## Memory and the dispatcher -/

/-- The memory the squaring routines work on: the `unity_zp` elements by
address, and the caller-supplied scratch array `t`. -/
structure World where
  elems : Nat → unity_zp
  scratch : List Int

/-- Store `x` at address `a`. -/
def World.write (w : World) (a : Nat) (x : unity_zp) : World :=
  { w with elems := fun b => if b = a then x else w.elems b }

/-- A squaring routine `r(f, g, t)` acting on memory; `f` and `g` are
addresses and may coincide. -/
abbrev Routine := World → Nat → Nat → Option World

/-- The routine `unity_zp_sqr(f, g)` acting on memory. -/
def unity_zp_sqr (reduce : unity_zp → unity_zp) (fuel : Nat) : Routine :=
  fun w f g =>
    match unity_zp_sqr_run reduce fuel (w.elems f) (w.elems g) with
    | none => none
    | some (x, _) => some (w.write f x)

/-- Names of the three squaring routines. -/
inductive Callee where
  | sqr5
  | sqr7
  | sqr
deriving DecidableEq

/-- The function `unity_zp_sqr_inplace(f, g, t)`:
```
if (f->p == 5 && f->exp == 1) unity_zp_sqr5(f, g, t);
if (f->p == 7 && f->exp == 1) unity_zp_sqr7(f, g, t);
else unity_zp_sqr(f, g);
```
`sqr5` and `sqr7` are the specialised routines, absent from the sources at
hand; `sqr` is the generic routine.  Returns the final memory and the list of
routines invoked, in order. -/
def unity_zp_sqr_inplace (sqr5 sqr7 sqr : Routine) (w : World) (f g : Nat) :
    Option (World × List Callee) :=
  let first : Option (World × List Callee) :=
    if (w.elems f).p = 5 ∧ (w.elems f).exp = 1 then
      (sqr5 w f g).map (fun w1 => (w1, [Callee.sqr5]))
    else some (w, [])
  match first with
  | none => none
  | some (w1, calls) =>
    if (w1.elems f).p = 7 ∧ (w1.elems f).exp = 1 then
      (sqr7 w1 f g).map (fun w2 => (w2, calls ++ [Callee.sqr7]))
    else
      (sqr w1 f g).map (fun w2 => (w2, calls ++ [Callee.sqr]))

/-! ## Specification-level notions and loop invariants -/

/-- Sum of the coefficients `c[i]`, `i < length`, with `i` congruent to `j`
modulo `P`: the coefficient of `x^j` in `c` reduced modulo `x^P - 1`. -/
def class_sum (P : Nat) (c : List Int) (j : Nat) : Int :=
  (((List.range c.length).filter (fun i => decide (i % P = j % P))).map
    (fun i => c.getD i 0)).sum

/-- All entries of the buffer lie in `[0, n)`. -/
def reduced (n : Int) (c : List Int) : Prop := ∀ x ∈ c, 0 ≤ x ∧ x < n

instance (n : Int) (c : List Int) : Decidable (reduced n c) := by
  unfold reduced; infer_instance

/-- Sum of the entries `c[i]` with `m ≤ i < length` and `i` congruent to `m`
modulo `P`. -/
def tail_sum (P : Nat) (c : List Int) (m : Nat) : Int :=
  ∑ i ∈ (Finset.range c.length).filter (fun i => m ≤ i ∧ i % P = m % P), c.getD i 0

/-- The state after at most `k` iterations of the fold loop (guard, body,
decrement), for inspecting the intermediate states of `fold_loop`. -/
def fold_steps (n : Int) (P : Nat) : Nat → FoldState → Option FoldState
  | 0, s => some s
  | k + 1, s =>
    if P ≤ s.i then
      match fold_body n P s with
      | none => none
      | some s1 => fold_steps n P k s1
    else some s

/-- Loop invariant of the fold loop when the index is `k`: cells above `k`
have been zeroed, cells whose source `m + P` is still to come hold their
original value, and the other cells hold their residue-class tail sum modulo
`n`. -/
def FoldInv (n : Int) (P : Nat) (c0 : List Int) (k : Nat) (b : List Int) : Prop :=
  b.length = c0.length ∧
  ∀ m, m < c0.length → b.getD m 0 =
    if k < m then 0 else if m + P ≤ k then c0.getD m 0 else tail_sum P c0 m % n

/-- The indices `k, k - 1, ..., k - d + 1` in this order. -/
def down_from (k d : Nat) : List Nat := (List.range d).map (fun t => k - t)

/-- A memory with `g = [2]` at address `0` and a fresh `f` at every other
address, all with `(p, exp, n) = (5, 1, 101)`. -/
def world_five : World :=
  { elems := fun a => if a = 0 then ⟨[2], 5, 1, 101⟩ else ⟨[], 5, 1, 101⟩, scratch := [] }

/-- A memory with `g = [2]` at address `0` and a fresh `f` at every other
address, all with `(p, exp, n) = (7, 1, 101)`. -/
def world_seven : World :=
  { elems := fun a => if a = 0 then ⟨[2], 7, 1, 101⟩ else ⟨[], 7, 1, 101⟩, scratch := [] }

/-! ## Rational matrices: `fmpq_mat_get_fmpz_mat_colwise` -/

/-- The C struct `fmpq`: numerator and denominator. -/
structure fmpq where
  num : Int
  den : Int
deriving DecidableEq

/-- The C struct `fmpq_mat`: `r` rows, `c` columns and the entries. -/
structure fmpq_mat where
  r : Nat
  c : Nat
  entries : Nat → Nat → fmpq

/-- The access `fmpq_mat_entry(mat, i, j)`: defined for a cell of the matrix,
undefined (`none`) outside it. -/
def fmpq_mat_entry (mat : fmpq_mat) (i j : Nat) : Option fmpq :=
  if i < mat.r ∧ j < mat.c then some (mat.entries i j) else none

/-- Modelled from the spec: `fmpq_mat_is_empty` (fmpq_mat.h, absent from the
sources at hand) holds when the matrix has no row or no column. -/
def fmpq_mat_is_empty (mat : fmpq_mat) : Bool :=
  decide (mat.r = 0 ∨ mat.c = 0)

/-- Modelled from the spec: `fmpz_lcm` (fmpz, absent from the sources at hand)
is the least common multiple, taken non-negative. -/
def fmpz_lcm (a b : Int) : Int := (Int.lcm a b : Nat)

/-- Modelled from the spec: `fmpz_divexact(t, a, b)` (fmpz, absent from the
sources at hand) is the quotient `a / b`; it is defined when `b` is nonzero
and the division has no remainder. -/
def fmpz_divexact (a b : Int) : Option Int :=
  if b ≠ 0 ∧ a % b = 0 then some (a / b) else none

/-- The outputs of `fmpq_mat_get_fmpz_mat_colwise`: the entries of the integer
matrix `num` and the array `den`. -/
structure ColwiseState where
  num : Nat → Nat → Int
  den : Nat → Int

/-- The assignment to `fmpz_mat_entry(num, i, j)`. -/
def set_entry (num : Nat → Nat → Int) (i j : Nat) (v : Int) : Nat → Nat → Int :=
  fun a b => if a = i ∧ b = j then v else num a b

/-- The loop `for (i = 1; i < mat->r; i++) fmpz_lcm(lcm, lcm, den(mat, i, j))`
over the list of its row indices. -/
def lcm_loop (mat : fmpq_mat) (j : Nat) : List Nat → Int → Option Int
  | [], l => some l
  | i :: rows, l =>
    match fmpq_mat_entry mat i j with
    | none => none
    | some q => lcm_loop mat j rows (fmpz_lcm l q.den)

/-- The common denominator of column `j`: `lcm` is seeded with the denominator
of the entry in row `0`, then runs through the rows `1 .. r - 1`. -/
def column_lcm (mat : fmpq_mat) (j : Nat) : Option Int :=
  match fmpq_mat_entry mat 0 j with
  | none => none
  | some q => lcm_loop mat j (List.range' 1 (mat.r - 1)) q.den

/-- The loop of the branch `fmpz_is_one(lcm)`: copy the numerators. -/
def copy_loop (mat : fmpq_mat) (j : Nat) :
    List Nat → (Nat → Nat → Int) → Option (Nat → Nat → Int)
  | [], num => some num
  | i :: rows, num =>
    match fmpq_mat_entry mat i j with
    | none => none
    | some q => copy_loop mat j rows (set_entry num i j q.num)

/-- The loop of the other branch:
```
fmpz_divexact(t, lcm, fmpq_mat_entry_den(mat, i, j));
fmpz_mul(fmpz_mat_entry(num, i, j), fmpq_mat_entry_num(mat, i, j), t);
``` -/
def scale_loop (mat : fmpq_mat) (lcm : Int) (j : Nat) :
    List Nat → (Nat → Nat → Int) → Option (Nat → Nat → Int)
  | [], num => some num
  | i :: rows, num =>
    match fmpq_mat_entry mat i j with
    | none => none
    | some q =>
      match fmpz_divexact lcm q.den with
      | none => none
      | some t => scale_loop mat lcm j rows (set_entry num i j (q.num * t))

/-- The body of the loop over the columns, for column `j`. -/
def colwise_column (mat : fmpq_mat) (st : ColwiseState) (j : Nat) : Option ColwiseState :=
  match column_lcm mat j with
  | none => none
  | some lcm =>
    let den1 : Nat → Int := fun b => if b = j then lcm else st.den b
    let rows := List.range mat.r
    let num1 := if lcm = 1 then copy_loop mat j rows st.num
      else scale_loop mat lcm j rows st.num
    match num1 with
    | none => none
    | some num2 => some { num := num2, den := den1 }

/-- The loop `for (j = 0; j < mat->c; j++)` over the list of its indices. -/
def colwise_loop (mat : fmpq_mat) : List Nat → ColwiseState → Option ColwiseState
  | [], st => some st
  | j :: cols, st =>
    match colwise_column mat st j with
    | none => none
    | some st1 => colwise_loop mat cols st1

/-- The function `fmpq_mat_get_fmpz_mat_colwise(num, den, mat)`: the final
values of `num` and `den`, or `none` when an access or a division was
undefined. -/
def fmpq_mat_get_fmpz_mat_colwise (num : Nat → Nat → Int) (den : Nat → Int)
    (mat : fmpq_mat) : Option ColwiseState :=
  if fmpq_mat_is_empty mat then some { num := num, den := den }
  else colwise_loop mat (List.range mat.c) { num := num, den := den }

/-- A `2 x 2` matrix: `1/2, 3/1` over `5/6, 7/1`. -/
def mat_two : fmpq_mat :=
  { r := 2, c := 2,
    entries := fun i j =>
      if i = 0 ∧ j = 0 then ⟨1, 2⟩ else if i = 1 ∧ j = 0 then ⟨5, 6⟩
      else if i = 0 ∧ j = 1 then ⟨3, 1⟩ else ⟨7, 1⟩ }

/-- A matrix with no row and three columns. -/
def mat_no_row : fmpq_mat :=
  { r := 0, c := 3, entries := fun _ _ => ⟨0, 1⟩ }

/-! ## `fmpz_mat_randajtai` -/

/-- The C struct `fmpz_mat`: `r` rows, `c` columns and the entries.  The
entries are a total function, so that a write outside the `r x c` block, which
is undefined in C, can be recorded and inspected. -/
structure fmpz_mat where
  r : Nat
  c : Nat
  entries : Nat → Nat → Int

/-- The assignment to `mat->rows[i] + j`. -/
def fmpz_mat.set (m : fmpz_mat) (i j : Nat) (v : Int) : fmpz_mat :=
  { m with entries := fun a b => if a = i ∧ b = j then v else m.entries a b }

/-- What `fmpz_mat_randajtai` takes from outside: `bits i`, the value of
`(ulong) pow((double) (2*d - i), alpha)` in row `i` (floating point);
`randm i j m`, the value drawn by `fmpz_randm` for cell `(i, j)` with bound
`m`; and `coin i j`, the value of `n_randint(2)` drawn for cell `(i, j)`. -/
structure AjtaiEnv where
  bits : Nat → Nat
  randm : Nat → Nat → Int → Int
  coin : Nat → Nat → Bool

/-- The matrix and the list of the cells `(row, column)` read or written so
far, one item per statement, in execution order. -/
structure AjtaiState where
  mat : fmpz_mat
  trace : List (Nat × Nat)

/-- The diagonal entry made from the draw `x`: `fmpz_add_ui(e, e, 2)` followed
by `fmpz_fdiv_q_2exp(e, e, 1)`. -/
def ajtai_diag (x : Int) : Int := Int.fdiv (x + 2) (2 ^ 1)

/-- The inner loop `for (j = i + 1; j <= d; j++)`, over the list of its
indices:
```
fmpz_randm(mat->rows[j] + i, tmp);
if (n_randint(2)) fmpz_neg(mat->rows[j] + i, mat->rows[j] + i);
fmpz_zero(mat->rows[i] + j);
``` -/
def ajtai_inner (env : AjtaiEnv) (i : Nat) (tmp : Int) : List Nat → AjtaiState → AjtaiState
  | [], st => st
  | j :: js, st =>
    let m1 := st.mat.set j i (env.randm j i tmp)
    let m2 := if env.coin j i then m1.set j i (- m1.entries j i) else m1
    let t2 := if env.coin j i then [(j, i), (j, i)] else [(j, i)]
    let m3 := m2.set i j 0
    ajtai_inner env i tmp js { mat := m3, trace := st.trace ++ t2 ++ [(i, j)] }

/-- The outer loop `for (i = 0; i < d; i++)`, over the list of its indices:
`tmp = 2^bits - 1`, the diagonal entry is drawn, increased by `2` and halved,
then the inner loop runs for `j = i + 1, ..., d`. -/
def ajtai_outer (env : AjtaiEnv) (d : Nat) : List Nat → AjtaiState → AjtaiState
  | [], st => st
  | i :: rest, st =>
    let tmp : Int := 2 ^ env.bits i - 1
    let m1 := st.mat.set i i (env.randm i i tmp)
    let m2 := m1.set i i (ajtai_diag (m1.entries i i))
    let st1 : AjtaiState := { mat := m2, trace := st.trace ++ [(i, i), (i, i), (i, i)] }
    ajtai_outer env d rest (ajtai_inner env i tmp (List.range' (i + 1) (d - i)) st1)

/-- How a run of `fmpz_mat_randajtai` ends: whether `abort()` was called, what
was printed, the matrix and the cells touched. -/
structure AjtaiResult where
  aborted : Bool
  printed : List String
  mat : fmpz_mat
  trace : List (Nat × Nat)

/-- The function `fmpz_mat_randajtai(mat, alpha)`:
```
r = mat->r; c = mat->c; d = r;
if (c != r) { printf("Exception: ..."); abort(); }
for (i = 0; i < d; i++) ...
``` -/
def fmpz_mat_randajtai (env : AjtaiEnv) (mat : fmpz_mat) : AjtaiResult :=
  let r := mat.r
  let c := mat.c
  let d := r
  if c ≠ r then
    { aborted := true,
      printed := ["Exception: fmpz_mat_ajtai called on an ill-formed matrix\n"],
      mat := mat, trace := [] }
  else
    let st := ajtai_outer env d (List.range d) { mat := mat, trace := [] }
    { aborted := false, printed := [], mat := st.mat, trace := st.trace }

/-- An environment: one bit per row, every draw `0`, every coin `0`. -/
def env_zero : AjtaiEnv :=
  { bits := fun _ => 1, randm := fun _ _ _ => 0, coin := fun _ _ => false }

/-- An environment: three bits per row, every draw the largest value below
its bound, every coin `1`. -/
def env_max : AjtaiEnv :=
  { bits := fun _ => 3, randm := fun _ _ m => m - 1, coin := fun _ _ => true }

/-- The `d x d` zero matrix. -/
def mat_square (d : Nat) : fmpz_mat :=
  { r := d, c := d, entries := fun _ _ => 0 }

/-- The `2 x 3` zero matrix. -/
def mat_two_by_three : fmpz_mat :=
  { r := 2, c := 3, entries := fun _ _ => 0 }

/-! ## `fmpz_factor_si` -/

theorem getD_set_int (l : List Int) (i j : Nat) (a : Int) :
    (l.set i a).getD j 0 = if i = j ∧ i < l.length then a else l.getD j 0 := by
  simp only [List.getD_eq_getElem?_getD, List.getElem?_set]
  by_cases h : i = j
  · subst h
    by_cases h2 : i < l.length
    · simp [h2]
    · simp [h2, List.getElem?_eq_none (Nat.le_of_not_lt h2)]
  · simp [h]

theorem getD_reduced {n : Int} {c : List Int} (h : reduced n c) {m : Nat}
    (hm : m < c.length) : 0 ≤ c.getD m 0 ∧ c.getD m 0 < n := by
  have : c.getD m 0 = c.get ⟨m, hm⟩ := by
    simp [List.getD_eq_getElem?_getD, List.getElem?_eq_getElem hm]
  rw [this]
  exact h _ (List.get_mem c m hm)

theorem ulong_dec_pos {i : Nat} (h0 : 0 < i) (h : i < ulong_size) : ulong_dec i = i - 1 := by
  unfold ulong_dec ulong_size at *
  omega

theorem ulong_of_pred_pos {l : Nat} (h0 : 0 < l) (h : l ≤ ulong_size) :
    ulong_of_pred l = l - 1 := by
  unfold ulong_of_pred ulong_size at *
  omega

theorem class_sum_eq_finset (P : Nat) (c : List Int) (j : Nat) :
    class_sum P c j =
      ∑ i ∈ (Finset.range c.length).filter (fun i => i % P = j % P), c.getD i 0 := by
  unfold class_sum
  rw [← List.sum_toFinset _ ((List.nodup_range _).filter _), List.toFinset_filter]
  congr 1
  ext i
  simp

theorem tail_sum_eq_class_sum {P : Nat} (c : List Int) {j : Nat} (hj : j < P) :
    tail_sum P c j = class_sum P c j := by
  rw [class_sum_eq_finset]
  unfold tail_sum
  congr 1
  ext i
  simp only [Finset.mem_filter, Finset.mem_range]
  constructor
  · rintro ⟨h1, _, h3⟩; exact ⟨h1, h3⟩
  · rintro ⟨h1, h3⟩
    refine ⟨h1, ?_, h3⟩
    rw [Nat.mod_eq_of_lt hj] at h3
    rw [← h3]; exact Nat.mod_le _ _

theorem tail_sum_last {P : Nat} (c : List Int) {m : Nat} (hm : m < c.length)
    (hP : c.length ≤ m + P) : tail_sum P c m = c.getD m 0 := by
  unfold tail_sum
  have : (Finset.range c.length).filter (fun i => m ≤ i ∧ i % P = m % P) = {m} := by
    ext i
    simp only [Finset.mem_filter, Finset.mem_range, Finset.mem_singleton]
    constructor
    · rintro ⟨h1, h2, h3⟩
      by_contra hne
      have hlt : m < i := by omega
      have hd : P ∣ i - m := (Nat.modEq_iff_dvd' h2).mp h3.symm
      have := Nat.le_of_dvd (by omega) hd
      omega
    · rintro rfl; exact ⟨hm, le_refl _, rfl⟩
  rw [this, Finset.sum_singleton]

theorem tail_sum_step {P : Nat} (hP : 0 < P) (c : List Int) {m : Nat}
    (hm : m < c.length) : tail_sum P c m = c.getD m 0 + tail_sum P c (m + P) := by
  unfold tail_sum
  have : (Finset.range c.length).filter (fun i => m ≤ i ∧ i % P = m % P) =
      insert m ((Finset.range c.length).filter
        (fun i => m + P ≤ i ∧ i % P = (m + P) % P)) := by
    ext i
    simp only [Finset.mem_filter, Finset.mem_range, Finset.mem_insert, Nat.add_mod_right]
    constructor
    · rintro ⟨h1, h2, h3⟩
      by_cases hne : i = m
      · exact Or.inl hne
      · right
        have hd : P ∣ i - m := (Nat.modEq_iff_dvd' h2).mp h3.symm
        have := Nat.le_of_dvd (by omega) hd
        exact ⟨h1, by omega, h3⟩
    · rintro (rfl | ⟨h1, h2, h3⟩)
      · exact ⟨hm, le_refl _, rfl⟩
      · exact ⟨h1, by omega, h3⟩
  rw [this, Finset.sum_insert]
  simp only [Finset.mem_filter, Finset.mem_range, not_and]
  intro _ h; omega

theorem cond_sub_eq_emod {a n : Int} (h0 : 0 ≤ a) (h1 : a < 2 * n) :
    (if n ≤ a then a - n else a) = a % n := by
  split
  · have : (a - n) % n = a - n := Int.emod_eq_of_lt (by omega) (by omega)
    rw [← this]; simp
  · exact (Int.emod_eq_of_lt h0 (by omega)).symm

theorem reduced_of_getD {n : Int} {b : List Int}
    (h : ∀ m, m < b.length → 0 ≤ b.getD m 0 ∧ b.getD m 0 < n) : reduced n b := by
  intro x hx
  obtain ⟨m, hm, rfl⟩ := List.getElem_of_mem hx
  have := h m hm
  simpa [List.getD_eq_getElem?_getD, List.getElem?_eq_getElem hm] using this

theorem FoldInv.is_reduced {n : Int} {P : Nat} {c0 : List Int} {k : Nat} {b : List Int}
    (hn : 0 < n) (hc : reduced n c0) (h : FoldInv n P c0 k b) : reduced n b := by
  apply reduced_of_getD
  intro m hm
  rw [h.1] at hm
  rw [h.2 m hm]
  split
  · exact ⟨le_refl _, hn⟩
  · split
    · exact getD_reduced hc hm
    · exact ⟨Int.emod_nonneg _ (by omega), Int.emod_lt_of_pos _ hn⟩

theorem FoldInv.init {n : Int} {P : Nat} {c0 : List Int} (hc : reduced n c0) :
    FoldInv n P c0 (c0.length - 1) c0 := by
  refine ⟨rfl, fun m hm => ?_⟩
  rw [if_neg (by omega)]
  split
  · rfl
  · rw [tail_sum_last c0 hm (by omega)]
    have := getD_reduced hc hm
    exact (Int.emod_eq_of_lt this.1 this.2).symm

theorem fold_body_inv {n : Int} {P : Nat} {c0 : List Int} {k : Nat} {b : List Int}
    (hn : 0 < n) (hP : 0 < P) (hc : reduced n c0) (hk : k < c0.length)
    (hW : k < ulong_size) (hPk : P ≤ k) (h : FoldInv n P c0 k b) :
    ∃ b1, fold_body n P ⟨k, b⟩ = some ⟨k - 1, b1⟩ ∧ FoldInv n P c0 (k - 1) b1 := by
  have hlen := h.1
  have hsrc : b.getD k 0 = tail_sum P c0 k % n := by
    rw [h.2 k hk, if_neg (by omega), if_neg (by omega)]
  have hdst : b.getD (k - P) 0 = c0.getD (k - P) 0 := by
    rw [h.2 (k - P) (by omega), if_neg (by omega), if_pos (by omega)]
  have hd := getD_reduced hc (show k - P < c0.length by omega)
  have hs1 : 0 ≤ tail_sum P c0 k % n := Int.emod_nonneg _ (by omega)
  have hs2 : tail_sum P c0 k % n < n := Int.emod_lt_of_pos _ hn
  have hnew : (if n ≤ c0.getD (k - P) 0 + tail_sum P c0 k % n
      then c0.getD (k - P) 0 + tail_sum P c0 k % n - n
      else c0.getD (k - P) 0 + tail_sum P c0 k % n) = tail_sum P c0 (k - P) % n := by
    rw [cond_sub_eq_emod (by omega) (by omega),
      tail_sum_step hP c0 (show k - P < c0.length by omega),
      show k - P + P = k by omega]
    simp
  have hne : ¬ (k = k - P) := by omega
  have hbody : fold_body n P ⟨k, b⟩ = some ⟨k - 1,
      if n ≤ c0.getD (k - P) 0 + tail_sum P c0 k % n then
        ((b.set (k - P) (c0.getD (k - P) 0 + tail_sum P c0 k % n)).set k 0).set (k - P)
          (c0.getD (k - P) 0 + tail_sum P c0 k % n - n)
      else (b.set (k - P) (c0.getD (k - P) 0 + tail_sum P c0 k % n)).set k 0⟩ := by
    unfold fold_body
    simp only [hlen, hk, if_true, getD_set_int, List.length_set, hsrc, hdst, hne,
      false_and, if_false, true_and, show k - P < c0.length by omega,
      ulong_dec_pos (show 0 < k by omega) hW]
  refine ⟨_, hbody, ?_, ?_⟩
  · split <;> simp [hlen]
  · intro m hm
    have hget : (if n ≤ c0.getD (k - P) 0 + tail_sum P c0 k % n then
        ((b.set (k - P) (c0.getD (k - P) 0 + tail_sum P c0 k % n)).set k 0).set (k - P)
          (c0.getD (k - P) 0 + tail_sum P c0 k % n - n)
        else (b.set (k - P) (c0.getD (k - P) 0 + tail_sum P c0 k % n)).set k 0).getD m 0 =
        if m = k - P then tail_sum P c0 (k - P) % n
        else if m = k then 0 else b.getD m 0 := by
      rw [← hnew]
      have hne2 : ¬ (k - P = k) := by omega
      split <;>
      · simp only [getD_set_int, List.length_set, hlen, hk,
          show k - P < c0.length by omega, and_true]
        by_cases h1 : k - P = m
        · subst h1; simp [hne]
        · by_cases h2 : k = m
          · subst h2; simp [hne, hne2]
          · simp [h1, h2, Ne.symm h1, Ne.symm h2]
    rw [hget, h.2 m hm]
    split_ifs <;> first | rfl | (exfalso; omega) | (subst_vars; rfl)

theorem down_from_succ (k d : Nat) :
    down_from k (d + 1) = k :: down_from (k - 1) d := by
  unfold down_from
  rw [List.range_succ_eq_map]
  simp only [List.map_cons, List.map_map, Nat.sub_zero, List.cons.injEq, true_and]
  apply List.map_congr_left
  intro t _
  simp only [Function.comp, Nat.succ_eq_add_one]
  omega

theorem fold_loop_inv {n : Int} {P : Nat} {c0 : List Int}
    (hn : 0 < n) (hP : 0 < P) (hc : reduced n c0) (hW : c0.length ≤ ulong_size) :
    ∀ (d k : Nat) (b : List Int) (fuel : Nat), k < c0.length → FoldInv n P c0 k b →
      d = k + 1 - P → d < fuel →
      ∃ b1, fold_loop n P fuel ⟨k, b⟩ = some (⟨k - d, b1⟩, down_from k d) ∧
        FoldInv n P c0 (k - d) b1 := by
  intro d
  induction d with
  | zero =>
    intro k b fuel _ hinv hd hfuel
    obtain ⟨fuel, rfl⟩ : ∃ f, fuel = f + 1 := ⟨fuel - 1, by omega⟩
    refine ⟨b, ?_, hinv⟩
    have : ¬ P ≤ k := by omega
    simp [fold_loop, this, down_from]
  | succ d ih =>
    intro k b fuel hk hinv hd hfuel
    obtain ⟨fuel, rfl⟩ : ∃ f, fuel = f + 1 := ⟨fuel - 1, by omega⟩
    have hPk : P ≤ k := by omega
    obtain ⟨b1, hb1, hinv1⟩ := fold_body_inv hn hP hc hk (by omega) hPk hinv
    obtain ⟨b2, hb2, hinv2⟩ := ih (k - 1) b1 fuel (by omega) hinv1 (by omega) (by omega)
    refine ⟨b2, ?_, ?_⟩
    · simp only [fold_loop, hPk, if_true, hb1, hb2]
      rw [down_from_succ k d, show k - (d + 1) = k - 1 - d by omega]
    · rw [show k - (d + 1) = k - 1 - d by omega]
      exact hinv2

theorem fold_steps_inv {n : Int} {P : Nat} {c0 : List Int}
    (hn : 0 < n) (hP : 0 < P) (hc : reduced n c0) (hW : c0.length ≤ ulong_size) :
    ∀ (j k : Nat) (b : List Int), k < c0.length → FoldInv n P c0 k b →
      ∃ s, fold_steps n P j ⟨k, b⟩ = some s ∧ s.i ≤ k ∧ FoldInv n P c0 s.i s.coeffs := by
  intro j
  induction j with
  | zero =>
    intro k b _ hinv
    exact ⟨⟨k, b⟩, rfl, le_refl _, hinv⟩
  | succ j ih =>
    intro k b hk hinv
    by_cases hPk : P ≤ k
    · obtain ⟨b1, hb1, hinv1⟩ := fold_body_inv hn hP hc hk (by omega) hPk hinv
      obtain ⟨s, hs, hle, hinv2⟩ := ih (k - 1) b1 (by omega) hinv1
      exact ⟨s, by simp only [fold_steps, hPk, if_true, hb1, hs], by omega, hinv2⟩
    · exact ⟨⟨k, b⟩, by simp [fold_steps, hPk], le_refl _, hinv⟩

/-- Full description of the fold loop on a reduced product buffer. -/
theorem fold_spec {n : Int} {P : Nat} {c : List Int}
    (hn : 0 < n) (hP : 0 < P) (hc : reduced n c) (hL : 0 < c.length)
    (hW : c.length ≤ ulong_size) {fuel : Nat} (hfuel : c.length - P < fuel) :
    ∃ b, fold n P fuel c =
        some (⟨c.length - 1 - (c.length - P), b⟩, down_from (c.length - 1) (c.length - P)) ∧
      FoldInv n P c (c.length - 1 - (c.length - P)) b := by
  unfold fold
  rw [ulong_of_pred_pos hL hW]
  exact fold_loop_inv hn hP hc hW (c.length - P) (c.length - 1) c fuel (by omega)
    (FoldInv.init hc) (by omega) hfuel

theorem class_sum_of_length_le {P : Nat} (c : List Int) {j : Nat} (hj : j < P)
    (hL : c.length ≤ j) : class_sum P c j = 0 := by
  rw [class_sum_eq_finset]
  apply Finset.sum_eq_zero
  intro i hi
  simp only [Finset.mem_filter, Finset.mem_range] at hi
  exfalso
  have h1 := Nat.mod_le i P
  rw [hi.2, Nat.mod_eq_of_lt hj] at h1
  omega

theorem FoldInv.low {n : Int} {P : Nat} {c : List Int} {k : Nat} {b : List Int}
    (h : FoldInv n P c k b) (hk : k < P) (hkL : k + 1 = min c.length P) {j : Nat} (hj : j < P) :
    b.getD j 0 = class_sum P c j % n := by
  by_cases hjL : j < c.length
  · rw [h.2 j hjL, if_neg (by omega), if_neg (by omega), tail_sum_eq_class_sum c hj]
  · rw [class_sum_of_length_le c hj (by omega)]
    simp [List.getD_eq_getElem?_getD, List.getElem?_eq_none (show b.length ≤ j by rw [h.1]; omega)]

theorem FoldInv.high {n : Int} {P : Nat} {c : List Int} {k : Nat} {b : List Int}
    (h : FoldInv n P c k b) (hk : k < P) {j : Nat} (hj : P ≤ j) :
    b.getD j 0 = 0 := by
  by_cases hjL : j < c.length
  · rw [h.2 j hjL, if_pos (by omega)]
  · simp [List.getD_eq_getElem?_getD, List.getElem?_eq_none (show b.length ≤ j by rw [h.1]; omega)]

/-! ## The fold loop: values and ranges -/

/-- C3: on a product buffer `c` with entries in `[0, n)`, of length `L >= 1`,
with `P >= 1` and `n >= 1`, the fold loop of `unity_zp_sqr` terminates and
leaves at every index `j < P` the value
`(sum of c[i] over i < L with i congruent to j modulo P) mod n`, that is, `c`
reduced modulo `(x^P - 1, n)`. -/
theorem fold_computes_class_sums (n : Int) (P : Nat) (c : List Int) (fuel : Nat)
    (hn : 1 ≤ n) (hP : 1 ≤ P) (hL : 1 ≤ c.length) (hW : c.length ≤ ulong_size)
    (hc : reduced n c) (hfuel : c.length - P < fuel) :
    ∃ s tr, fold n P fuel c = some (s, tr) ∧
      ∀ j, j < P → s.coeffs.getD j 0 = class_sum P c j % n := by
  obtain ⟨b, hb, hinv⟩ := fold_spec (by omega) hP hc hL hW hfuel
  refine ⟨_, _, hb, fun j hj => ?_⟩
  exact hinv.low (by omega) (by omega) hj

theorem fold_computes_class_sums_witness :
    reduced 101 [4, 12, 9, 4, 22, 24, 1, 8, 16] ∧
    ∃ s tr, fold 101 5 5 [4, 12, 9, 4, 22, 24, 1, 8, 16] = some (s, tr) ∧
      ∀ j, j < 5 → s.coeffs.getD j 0 =
        class_sum 5 [4, 12, 9, 4, 22, 24, 1, 8, 16] j % 101 :=
  ⟨by decide, fold_computes_class_sums 101 5 [4, 12, 9, 4, 22, 24, 1, 8, 16] 5
    (by decide) (by decide) (by decide) (by decide) (by decide) (by decide)⟩

/-- C4: on a product buffer with entries in `[0, n)`, of length `L >= 1`, with
`P >= 1` and `n >= 1`, the fold loop of `unity_zp_sqr` terminates with the
length unchanged, zero at every index `>= P` and a value in `[0, n)` at every
index `< P`; before every iteration all entries, in particular the source and
the destination, are in `[0, n)` and their sum is below `2n`. -/
theorem fold_keeps_range (n : Int) (P : Nat) (c : List Int) (fuel : Nat)
    (hn : 1 ≤ n) (hP : 1 ≤ P) (hL : 1 ≤ c.length) (hW : c.length ≤ ulong_size)
    (hc : reduced n c) (hfuel : c.length - P < fuel) :
    (∃ s tr, fold n P fuel c = some (s, tr) ∧ s.coeffs.length = c.length ∧
      (∀ j, P ≤ j → s.coeffs.getD j 0 = 0) ∧
      (∀ j, j < P → 0 ≤ s.coeffs.getD j 0 ∧ s.coeffs.getD j 0 < n)) ∧
    (∀ k, ∃ s, fold_steps n P k ⟨ulong_of_pred c.length, c⟩ = some s ∧
      reduced n s.coeffs ∧
      (P ≤ s.i → s.i < s.coeffs.length ∧
        0 ≤ s.coeffs.getD (s.i - P) 0 ∧ s.coeffs.getD (s.i - P) 0 < n ∧
        0 ≤ s.coeffs.getD s.i 0 ∧ s.coeffs.getD s.i 0 < n ∧
        s.coeffs.getD (s.i - P) 0 + s.coeffs.getD s.i 0 < 2 * n)) := by
  have hn0 : 0 < n := by omega
  constructor
  · obtain ⟨b, hb, hinv⟩ := fold_spec hn0 hP hc hL hW hfuel
    refine ⟨_, _, hb, hinv.1, fun j hj => hinv.high (by omega) hj, fun j hj => ?_⟩
    show 0 ≤ b.getD j 0 ∧ b.getD j 0 < n
    rw [hinv.low (by omega) (by omega) hj]
    exact ⟨Int.emod_nonneg _ (by omega), Int.emod_lt_of_pos _ hn0⟩
  · intro k
    rw [ulong_of_pred_pos hL hW]
    obtain ⟨s, hs, hle, hinv⟩ :=
      fold_steps_inv hn0 hP hc hW k (c.length - 1) c (by omega) (FoldInv.init hc)
    have hred := hinv.is_reduced hn0 hc
    refine ⟨s, hs, hred, fun _ => ?_⟩
    have hi : s.i < s.coeffs.length := by rw [hinv.1]; omega
    have h1 := getD_reduced hred (show s.i - P < s.coeffs.length by omega)
    have h2 := getD_reduced hred hi
    exact ⟨hi, h1.1, h1.2, h2.1, h2.2, by omega⟩

theorem fold_keeps_range_witness :
    reduced 5 [4, 4, 4, 4, 4] ∧
    (∃ s tr, fold 5 2 4 [4, 4, 4, 4, 4] = some (s, tr) ∧ s.coeffs.length = 5 ∧
      (∀ j, 2 ≤ j → s.coeffs.getD j 0 = 0) ∧
      (∀ j, j < 2 → 0 ≤ s.coeffs.getD j 0 ∧ s.coeffs.getD j 0 < 5)) ∧
    (∀ k, ∃ s, fold_steps 5 2 k ⟨ulong_of_pred 5, [4, 4, 4, 4, 4]⟩ = some s ∧
      reduced 5 s.coeffs ∧
      (2 ≤ s.i → s.i < s.coeffs.length ∧
        0 ≤ s.coeffs.getD (s.i - 2) 0 ∧ s.coeffs.getD (s.i - 2) 0 < 5 ∧
        0 ≤ s.coeffs.getD s.i 0 ∧ s.coeffs.getD s.i 0 < 5 ∧
        s.coeffs.getD (s.i - 2) 0 + s.coeffs.getD s.i 0 < 2 * 5)) :=
  ⟨by decide, fold_keeps_range 5 2 [4, 4, 4, 4, 4] 4
    (by decide) (by decide) (by decide) (by decide) (by decide) (by decide)⟩

/-- C8 (as stated, refuted): with `n = 3`, `p^k = 1` and the buffer `[0, 10]`,
whose entries are not reduced, the fold loop leaves `7` at index `0`, which
is not in `[0, 3)`. -/
theorem fold_unreduced_counterexample :
    (1 : Int) ≤ 3 ∧ 1 ≤ ([0, 10] : List Int).length ∧
    fold 3 1 2 [0, 10] = some (⟨0, [7, 0]⟩, [1]) ∧
    ¬ (∀ j, j < 1 → ∃ x, ([7, 0] : List Int).get? j = some x ∧ 0 ≤ x ∧ x < 3) := by
  refine ⟨by decide, by decide, by decide, fun h => ?_⟩
  obtain ⟨x, hx, _, h3⟩ := h 0 (by decide)
  simp only [List.get?_cons_zero, Option.some.injEq] at hx
  omega

/-- C8 (amended): for a buffer of length `L >= p^k >= 1` whose entries lie in
`[0, n)`, `n >= 1`, the fold loop of `unity_zp_sqr` terminates and leaves each
of the first `p^k` coefficients in `[0, n)`. -/
theorem fold_first_coeffs_reduced (n : Int) (P : Nat) (c : List Int) (fuel : Nat)
    (hn : 1 ≤ n) (hP : 1 ≤ P) (hL : P ≤ c.length) (hW : c.length ≤ ulong_size)
    (hc : reduced n c) (hfuel : c.length - P < fuel) :
    ∃ s tr, fold n P fuel c = some (s, tr) ∧
      ∀ j, j < P → ∃ x, s.coeffs.get? j = some x ∧ 0 ≤ x ∧ x < n := by
  obtain ⟨b, hb, hinv⟩ := fold_spec (by omega) hP hc (by omega) hW hfuel
  refine ⟨_, _, hb, fun j hj => ?_⟩
  have hjb : j < b.length := by rw [hinv.1]; omega
  have hred := hinv.is_reduced (by omega) hc
  refine ⟨b.get ⟨j, hjb⟩, List.get?_eq_get hjb, hred _ (List.get_mem b j hjb)⟩

theorem fold_first_coeffs_reduced_witness :
    reduced 3 [2, 2, 2] ∧
    ∃ s tr, fold 3 1 3 [2, 2, 2] = some (s, tr) ∧
      ∀ j, j < 1 → ∃ x, s.coeffs.get? j = some x ∧ 0 ≤ x ∧ x < 3 :=
  ⟨by decide, fold_first_coeffs_reduced 3 1 [2, 2, 2] 3
    (by decide) (by decide) (by decide) (by decide) (by decide) (by decide)⟩

/-- C9: on a buffer of length `L` with `1 <= L <= p^exp` and coefficients in
`[0, n)` the fold loop of `unity_zp_sqr` performs zero iterations and returns
the buffer, coefficients and length, unchanged; consequently the result of a
fold, trimmed to its first `p^exp` entries, is left unchanged by a second
fold. -/
theorem fold_noop_of_short (n : Int) (P : Nat) (c : List Int) (fuel : Nat)
    (hL : 1 ≤ c.length) (hLP : c.length ≤ P) (hfuel : 1 ≤ fuel) :
    fold n P fuel c = some (⟨ulong_of_pred c.length, c⟩, []) ∧
    ∀ (c0 : List Int) (fuel0 : Nat),
      1 ≤ n → 1 ≤ c0.length → c0.length ≤ ulong_size → reduced n c0 →
      c0.length - P < fuel0 →
      ∃ s tr, fold n P fuel0 c0 = some (s, tr) ∧
        fold n P fuel (s.coeffs.take P) =
          some (⟨ulong_of_pred (s.coeffs.take P).length, s.coeffs.take P⟩, []) := by
  have key : ∀ (b : List Int), 1 ≤ b.length → b.length ≤ P →
      fold n P fuel b = some (⟨ulong_of_pred b.length, b⟩, []) := by
    intro b hb1 hb2
    obtain ⟨fuel, rfl⟩ : ∃ f, fuel = f + 1 := ⟨fuel - 1, by omega⟩
    have : ¬ P ≤ ulong_of_pred b.length := by
      unfold ulong_of_pred ulong_size
      omega
    simp [fold, fold_loop, this]
  refine ⟨key c hL hLP, ?_⟩
  intro c0 fuel0 hn hL0 hW0 hc0 hf0
  have hP : 1 ≤ P := by omega
  obtain ⟨b, hb, hinv⟩ := fold_spec (by omega) hP hc0 hL0 hW0 hf0
  refine ⟨_, _, hb, ?_⟩
  apply key
  · simp only [List.length_take, hinv.1]; omega
  · simp only [List.length_take]; omega

theorem fold_noop_of_short_witness :
    (fold 101 5 1 [28, 13, 17, 20, 22] =
        some (⟨ulong_of_pred ([28, 13, 17, 20, 22] : List Int).length,
          [28, 13, 17, 20, 22]⟩, []) ∧
    ∀ (c0 : List Int) (fuel0 : Nat),
      (1 : Int) ≤ 101 → 1 ≤ c0.length → c0.length ≤ ulong_size → reduced 101 c0 →
      c0.length - 5 < fuel0 →
      ∃ s tr, fold 101 5 fuel0 c0 = some (s, tr) ∧
        fold 101 5 1 (s.coeffs.take 5) =
          some (⟨ulong_of_pred (s.coeffs.take 5).length, s.coeffs.take 5⟩, [])) :=
  fold_noop_of_short 101 5 [28, 13, 17, 20, 22] 1 (by decide) (by decide) (by decide)

/-! ## `unity_zp_sqr` and the dispatcher -/

theorem fold_loop_fuel_add (n : Int) (P : Nat) (k : Nat) :
    ∀ (fuel : Nat) (s : FoldState) (r : FoldState × List Nat),
      fold_loop n P fuel s = some r → fold_loop n P (fuel + k) s = some r := by
  intro fuel
  induction fuel with
  | zero => intro s r h; simp [fold_loop] at h
  | succ fuel ih =>
    intro s r h
    rw [show fuel + 1 + k = (fuel + k) + 1 by omega]
    unfold fold_loop at h ⊢
    by_cases hP : P ≤ s.i
    · simp only [hP, if_true] at h ⊢
      cases hb : fold_body n P s with
      | none => simp [hb] at h
      | some s1 =>
        simp only [hb] at h ⊢
        cases hl : fold_loop n P fuel s1 with
        | none => simp [hl] at h
        | some r1 =>
          rw [ih s1 r1 hl]
          simpa [hl] using h
    · simpa [hP] using h

/-- C6: for `p = 5`, `exp = 1`, `n = 101` and `g = [2, 3, 0, 1, 4]` the product
is `[4, 12, 9, 4, 22, 24, 1, 8, 16]`, and `unity_zp_sqr` folds it in four
iterations to `[28, 13, 17, 20, 22, 0, 0, 0, 0]` before reducing: the first
five entries are `[28, 13, 17, 20, 22]`, all in `[0, 101)`, and the entries at
index `>= 5` are zero. -/
theorem unity_zp_sqr_scenario (reduce : unity_zp → unity_zp) (extra : Nat)
    (f_poly : List Int) :
    fmpz_mod_poly_sqr 101 [2, 3, 0, 1, 4] = [4, 12, 9, 4, 22, 24, 1, 8, 16] ∧
    fold 101 (n_pow 5 1) (5 + extra) [4, 12, 9, 4, 22, 24, 1, 8, 16] =
      some (⟨4, [28, 13, 17, 20, 22, 0, 0, 0, 0]⟩, [8, 7, 6, 5]) ∧
    unity_zp_sqr_run reduce (5 + extra) ⟨f_poly, 5, 1, 101⟩ ⟨[2, 3, 0, 1, 4], 5, 1, 101⟩ =
      some (reduce ⟨[28, 13, 17, 20, 22, 0, 0, 0, 0], 5, 1, 101⟩,
        [SqrEvent.fold_iteration 8, SqrEvent.fold_iteration 7, SqrEvent.fold_iteration 6,
          SqrEvent.fold_iteration 5, SqrEvent.reduce_cyclotomic]) ∧
    ([28, 13, 17, 20, 22, 0, 0, 0, 0] : List Int).take 5 = [28, 13, 17, 20, 22] ∧
    reduced 101 [28, 13, 17, 20, 22] ∧
    ([28, 13, 17, 20, 22, 0, 0, 0, 0] : List Int).drop 5 = [0, 0, 0, 0] := by
  have h1 : fmpz_mod_poly_sqr 101 [2, 3, 0, 1, 4] = [4, 12, 9, 4, 22, 24, 1, 8, 16] := by
    decide
  have h2 : fold 101 (n_pow 5 1) (5 + extra) [4, 12, 9, 4, 22, 24, 1, 8, 16] =
      some (⟨4, [28, 13, 17, 20, 22, 0, 0, 0, 0]⟩, [8, 7, 6, 5]) :=
    fold_loop_fuel_add 101 (n_pow 5 1) extra 5 _ _ (by decide)
  refine ⟨h1, h2, ?_, by decide, by decide, by decide⟩
  unfold unity_zp_sqr_run
  simp only [h1, h2]
  simp

theorem poly_normalise_eq_nil_iff (c : List Int) :
    poly_normalise c = [] ↔ ∀ x ∈ c, x = 0 := by
  unfold poly_normalise
  rw [List.reverse_eq_nil_iff, List.dropWhile_eq_nil_iff]
  simp

/-- The product has length `0` exactly when every coefficient of the full
convolution is divisible by `n`; this includes the case of an empty `g`. -/
theorem fmpz_mod_poly_sqr_length_zero_iff (n : Int) (g : List Int) :
    (fmpz_mod_poly_sqr n g).length = 0 ↔ ∀ x ∈ poly_mul g g, x % n = 0 := by
  unfold fmpz_mod_poly_sqr
  rw [List.length_eq_zero, poly_normalise_eq_nil_iff]
  simp

theorem fmpz_mod_poly_sqr_nil (n : Int) : fmpz_mod_poly_sqr n [] = [] := by
  rfl

theorem mem_of_mem_poly_normalise {c : List Int} {x : Int} (h : x ∈ poly_normalise c) :
    x ∈ c := by
  unfold poly_normalise at h
  have h1 := List.mem_reverse.mp h
  exact List.mem_reverse.mp ((List.dropWhile_sublist _).subset h1)

/-- The product returned by `fmpz_mod_poly_sqr` has its entries in `[0, n)`:
it is a buffer to which the properties of the fold loop apply. -/
theorem fmpz_mod_poly_sqr_reduced {n : Int} (hn : 0 < n) (g : List Int) :
    reduced n (fmpz_mod_poly_sqr n g) := by
  intro x hx
  unfold fmpz_mod_poly_sqr at hx
  obtain ⟨y, _, rfl⟩ := List.mem_map.mp (mem_of_mem_poly_normalise hx)
  exact ⟨Int.emod_nonneg _ (by omega), Int.emod_lt_of_pos _ hn⟩

/-- C7: when the product `g*g` reduced modulo `n` has length `0`,
`unity_zp_sqr` returns at once, whatever the fuel: `f` holds the empty
polynomial, no fold iteration has run, `_unity_zp_reduce_cyclotomic` has not
been invoked and no failure is signalled. -/
theorem unity_zp_sqr_zero_length (reduce : unity_zp → unity_zp) (fuel : Nat)
    (f g : unity_zp) (h : (fmpz_mod_poly_sqr f.n g.poly).length = 0) :
    unity_zp_sqr_run reduce fuel f g = some (⟨[], f.p, f.exp, f.n⟩, []) := by
  unfold unity_zp_sqr_run
  simp only [h, if_true]
  rw [List.length_eq_zero.mp h]

theorem unity_zp_sqr_zero_length_witness :
    (fmpz_mod_poly_sqr 4 [2, 2]).length = 0 ∧
    unity_zp_sqr_run id 0 ⟨[1, 3], 5, 1, 4⟩ ⟨[2, 2], 5, 1, 4⟩ = some (⟨[], 5, 1, 4⟩, []) :=
  ⟨by decide, unity_zp_sqr_zero_length id 0 ⟨[1, 3], 5, 1, 4⟩ ⟨[2, 2], 5, 1, 4⟩ (by decide)⟩

/-- C1 (the code at the failing input): for `(p, exp) = (5, 1)`, when
`unity_zp_sqr5` returns and leaves `p` untouched, `unity_zp_sqr_inplace` goes
on to the second `if`, whose `else` branch runs the generic `unity_zp_sqr` as
well: two routines are invoked, not one. -/
theorem unity_zp_sqr_inplace_calls_at_five (sqr5 sqr7 sqr : Routine) (w w1 w2 : World)
    (f g : Nat) (hp : (w.elems f).p = 5) (he : (w.elems f).exp = 1)
    (h5 : sqr5 w f g = some w1) (hp1 : (w1.elems f).p = 5) (hs : sqr w1 f g = some w2) :
    (unity_zp_sqr_inplace sqr5 sqr7 sqr w f g).map (fun o => o.2) =
      some [Callee.sqr5, Callee.sqr] := by
  simp [unity_zp_sqr_inplace, hp, he, h5, hp1, hs]

theorem unity_zp_sqr_inplace_calls_at_five_witness :
    (unity_zp_sqr_inplace (unity_zp_sqr id 1) (unity_zp_sqr id 1) (unity_zp_sqr id 1)
      world_five 1 0).map (fun o => o.2) = some [Callee.sqr5, Callee.sqr] :=
  unity_zp_sqr_inplace_calls_at_five (unity_zp_sqr id 1) (unity_zp_sqr id 1)
    (unity_zp_sqr id 1) world_five (world_five.write 1 ⟨[4], 5, 1, 101⟩)
    ((world_five.write 1 ⟨[4], 5, 1, 101⟩).write 1 ⟨[4], 5, 1, 101⟩) 1 0
    (by decide) (by decide) (by rfl) (by decide) (by rfl)

theorem fold_of_length_le (n : Int) (P : Nat) (k : Nat) (b : List Int)
    (hb1 : 1 ≤ b.length) (hb2 : b.length ≤ P) :
    fold n P (k + 1) b = some (⟨ulong_of_pred b.length, b⟩, []) := by
  have : ¬ P ≤ ulong_of_pred b.length := by
    unfold ulong_of_pred ulong_size
    omega
  simp [fold, fold_loop, this]

theorem n_pow_five_one : n_pow 5 1 = 5 := by decide

theorem ulong_of_pred_one : ulong_of_pred 1 = 0 := by decide

/-- The path of `unity_zp_sqr` through the fold loop, from the values of the
product and of the fold. -/
theorem unity_zp_sqr_run_eq (reduce : unity_zp → unity_zp) (fuel : Nat) (f g : unity_zp)
    (c : List Int) (s : FoldState) (tr : List Nat)
    (hc : fmpz_mod_poly_sqr f.n g.poly = c) (hne : c.length ≠ 0)
    (hf : fold f.n (n_pow f.p f.exp) fuel c = some (s, tr)) :
    unity_zp_sqr_run reduce fuel f g =
      some (reduce ⟨s.coeffs, f.p, f.exp, f.n⟩,
        tr.map SqrEvent.fold_iteration ++ [SqrEvent.reduce_cyclotomic]) := by
  unfold unity_zp_sqr_run
  simp only [hc, hne, if_false, hf]

theorem unity_zp_sqr_run_const (reduce : unity_zp → unity_zp)
    (hred : ∀ x : unity_zp, x.poly.length ≤ 1 → reduce x = x) (k : Nat) (fp : List Int)
    (a b : Int) (hab : fmpz_mod_poly_sqr 101 [a] = [b]) :
    unity_zp_sqr_run reduce (k + 1) ⟨fp, 5, 1, 101⟩ ⟨[a], 5, 1, 101⟩ =
      some (⟨[b], 5, 1, 101⟩, [SqrEvent.reduce_cyclotomic]) := by
  have h1 : fold 101 (n_pow 5 1) (k + 1) [b] = some (⟨0, [b]⟩, []) := by
    rw [n_pow_five_one, fold_of_length_le 101 5 k [b] (by simp) (by simp)]
    simp [ulong_of_pred_one]
  rw [unity_zp_sqr_run_eq reduce (k + 1) ⟨fp, 5, 1, 101⟩ ⟨[a], 5, 1, 101⟩ [b] ⟨0, [b]⟩ []
    hab (by simp) h1]
  rw [hred ⟨[b], 5, 1, 101⟩ (by simp)]
  rfl

/-- C2 (the code at the failing input): for `(p, exp, n) = (5, 1, 101)` and
`g = [2]`, with all three routines computing the ring square alias-safely,
`unity_zp_sqr_inplace` with `f` aliased to `g` leaves `[16]`, the fourth
power, whereas with a fresh `f` it leaves `[4]`, the square. -/
theorem unity_zp_sqr_inplace_aliased_at_five (reduce : unity_zp → unity_zp) (fuel : Nat)
    (hred : ∀ x : unity_zp, x.poly.length ≤ 1 → reduce x = x) (hfuel : 1 ≤ fuel) :
    (unity_zp_sqr_inplace (unity_zp_sqr reduce fuel) (unity_zp_sqr reduce fuel)
      (unity_zp_sqr reduce fuel) world_five 0 0).map (fun o => o.1.elems 0) =
        some ⟨[16], 5, 1, 101⟩ ∧
    (unity_zp_sqr_inplace (unity_zp_sqr reduce fuel) (unity_zp_sqr reduce fuel)
      (unity_zp_sqr reduce fuel) world_five 1 0).map (fun o => o.1.elems 1) =
        some ⟨[4], 5, 1, 101⟩ := by
  obtain ⟨k, rfl⟩ : ∃ k, fuel = k + 1 := ⟨fuel - 1, by omega⟩
  have h2 := fun fp => unity_zp_sqr_run_const reduce hred k fp 2 4 (by decide)
  have h4 := fun fp => unity_zp_sqr_run_const reduce hred k fp 4 16 (by decide)
  constructor
  · simp [unity_zp_sqr_inplace, unity_zp_sqr, world_five, World.write, h2, h4]
  · simp [unity_zp_sqr_inplace, unity_zp_sqr, world_five, World.write, h2]

theorem unity_zp_sqr_inplace_aliased_at_five_witness :
    (∀ x : unity_zp, x.poly.length ≤ 1 → id x = x) ∧
    (unity_zp_sqr_inplace (unity_zp_sqr id 1) (unity_zp_sqr id 1)
      (unity_zp_sqr id 1) world_five 0 0).map (fun o => o.1.elems 0) =
        some ⟨[16], 5, 1, 101⟩ ∧
    (unity_zp_sqr_inplace (unity_zp_sqr id 1) (unity_zp_sqr id 1)
      (unity_zp_sqr id 1) world_five 1 0).map (fun o => o.1.elems 1) =
        some ⟨[4], 5, 1, 101⟩ :=
  ⟨fun _ _ => rfl, unity_zp_sqr_inplace_aliased_at_five id 1 (fun _ _ => rfl) (by decide)⟩

theorem unity_zp_sqr_elems (reduce : unity_zp → unity_zp) (fuel : Nat) (w : World) (f g : Nat) :
    unity_zp_sqr reduce fuel w f g =
      (unity_zp_sqr_run reduce fuel (w.elems f) (w.elems g)).map (fun o => w.write f o.1) := by
  unfold unity_zp_sqr
  cases unity_zp_sqr_run reduce fuel (w.elems f) (w.elems g) with
  | none => rfl
  | some o => rfl

theorem unity_zp_sqr_run_fields (reduce : unity_zp → unity_zp) (fuel : Nat) (f g x : unity_zp)
    (ev : List SqrEvent)
    (hred : ∀ x, (reduce x).p = x.p ∧ (reduce x).exp = x.exp ∧ (reduce x).n = x.n)
    (h : unity_zp_sqr_run reduce fuel f g = some (x, ev)) :
    x.p = f.p ∧ x.exp = f.exp ∧ x.n = f.n := by
  unfold unity_zp_sqr_run at h
  by_cases hc : (fmpz_mod_poly_sqr f.n g.poly).length = 0
  · simp only [hc, if_true, Option.some.injEq, Prod.mk.injEq] at h
    rw [← h.1]
    exact ⟨rfl, rfl, rfl⟩
  · simp only [hc, if_false] at h
    cases hf : fold f.n (n_pow f.p f.exp) fuel (fmpz_mod_poly_sqr f.n g.poly) with
    | none => simp [hf] at h
    | some r =>
      simp only [hf, Option.some.injEq, Prod.mk.injEq] at h
      rw [← h.1]
      exact hred _

theorem unity_zp_sqr_run_congr (reduce : unity_zp → unity_zp) (fuel : Nat) (f f1 g : unity_zp)
    (hp : f1.p = f.p) (he : f1.exp = f.exp) (hn : f1.n = f.n) :
    unity_zp_sqr_run reduce fuel f1 g = unity_zp_sqr_run reduce fuel f g := by
  unfold unity_zp_sqr_run
  simp only [hp, he, hn]

/-- C5: for elements `f` and `g` (in particular distinct ones), the value left in `f` by
`unity_zp_sqr_inplace(f, g, t)` is the value left in `f` by the generic
`unity_zp_sqr(f, g)`, provided `unity_zp_sqr5` on `(5, 1)` and
`unity_zp_sqr7` on `(7, 1)` leave in `f` what the generic routine leaves and
do not modify `g` (and `_unity_zp_reduce_cyclotomic` keeps `p`, `exp`, `n`). -/
theorem unity_zp_sqr_inplace_eq_generic (reduce : unity_zp → unity_zp) (fuel : Nat)
    (sqr5 sqr7 : Routine) (w : World) (f g : Nat)
    (hred : ∀ x, (reduce x).p = x.p ∧ (reduce x).exp = x.exp ∧ (reduce x).n = x.n)
    (h5 : (w.elems f).p = 5 ∧ (w.elems f).exp = 1 →
      (sqr5 w f g).map (fun o => (o.elems f, o.elems g)) =
        (unity_zp_sqr reduce fuel w f g).map (fun o => (o.elems f, w.elems g)))
    (h7 : (w.elems f).p = 7 ∧ (w.elems f).exp = 1 →
      (sqr7 w f g).map (fun o => (o.elems f, o.elems g)) =
        (unity_zp_sqr reduce fuel w f g).map (fun o => (o.elems f, w.elems g))) :
    (unity_zp_sqr_inplace sqr5 sqr7 (unity_zp_sqr reduce fuel) w f g).map
        (fun o => o.1.elems f) =
      (unity_zp_sqr reduce fuel w f g).map (fun o => o.elems f) := by
  have hw : ∀ (v : World) (x : unity_zp), (v.write f x).elems f = x := by
    intro v x
    simp [World.write]
  by_cases c5 : (w.elems f).p = 5 ∧ (w.elems f).exp = 1
  · have h := h5 c5
    rw [unity_zp_sqr_elems] at h ⊢
    unfold unity_zp_sqr_inplace
    simp only [c5, and_self, if_true]
    cases hs : sqr5 w f g with
    | none =>
      rw [hs] at h
      cases hr : unity_zp_sqr_run reduce fuel (w.elems f) (w.elems g) with
      | none => rfl
      | some o => rw [hr] at h; simp at h
    | some w1 =>
      rw [hs] at h
      cases hr : unity_zp_sqr_run reduce fuel (w.elems f) (w.elems g) with
      | none => rw [hr] at h; simp at h
      | some o =>
        obtain ⟨x, ev⟩ := o
        rw [hr] at h
        simp only [Option.map_some', Option.some.injEq, Prod.mk.injEq, hw] at h
        have hx := unity_zp_sqr_run_fields reduce fuel _ _ x ev hred hr
        have h7f : ¬ ((w1.elems f).p = 7 ∧ (w1.elems f).exp = 1) := by
          rw [h.1, hx.1, c5.1]
          intro hc
          exact absurd hc.1 (by decide)
        simp only [Option.map_some', h7f, if_false]
        rw [unity_zp_sqr_elems, h.1, h.2,
          unity_zp_sqr_run_congr reduce fuel (w.elems f) x (w.elems g) hx.1 hx.2.1 hx.2.2, hr]
        simp only [Option.map_some', hw]
  · by_cases c7 : (w.elems f).p = 7 ∧ (w.elems f).exp = 1
    · have h := congrArg (Option.map Prod.fst) (h7 c7)
      simp only [Option.map_map] at h
      unfold unity_zp_sqr_inplace
      simp only [c5, if_false]
      simp only [c7, and_self, if_true, Option.map_map]
      exact h
    · unfold unity_zp_sqr_inplace
      simp only [c5, if_false]
      simp only [c7, if_false, Option.map_map]
      rfl

theorem unity_zp_sqr_inplace_eq_generic_witness :
    (unity_zp_sqr_inplace (unity_zp_sqr id 1) (unity_zp_sqr id 1) (unity_zp_sqr id 1)
        world_five 1 0).map (fun o => o.1.elems 1) =
      (unity_zp_sqr id 1 world_five 1 0).map (fun o => o.elems 1) :=
  unity_zp_sqr_inplace_eq_generic id 1 (unity_zp_sqr id 1) (unity_zp_sqr id 1) world_five 1 0
    (fun _ => ⟨rfl, rfl, rfl⟩) (fun _ => by decide) (fun _ => by decide)

/-! ## Column-wise common denominators -/

theorem fmpq_mat_entry_of_lt (mat : fmpq_mat) {i j : Nat} (hi : i < mat.r) (hj : j < mat.c) :
    fmpq_mat_entry mat i j = some (mat.entries i j) := by
  simp [fmpq_mat_entry, hi, hj]

theorem fmpz_lcm_pos {a b : Int} (ha : 0 < a) (hb : 0 < b) : 0 < fmpz_lcm a b := by
  unfold fmpz_lcm Int.lcm
  have h1 : 0 < a.natAbs := Int.natAbs_pos.mpr (by omega)
  have h2 : 0 < b.natAbs := Int.natAbs_pos.mpr (by omega)
  exact_mod_cast Nat.lcm_pos h1 h2

/-- The lcm loop over rows with positive denominators returns the least
common multiple of the seed and of the denominators of these rows. -/
theorem lcm_loop_spec (mat : fmpq_mat) (j : Nat) (hj : j < mat.c) :
    ∀ (rows : List Nat) (l : Int),
      (∀ i ∈ rows, i < mat.r ∧ 0 < (mat.entries i j).den) → 0 < l →
      ∃ L, lcm_loop mat j rows l = some L ∧ 0 < L ∧ l ∣ L ∧
        (∀ i ∈ rows, (mat.entries i j).den ∣ L) ∧
        ∀ m : Int, l ∣ m → (∀ i ∈ rows, (mat.entries i j).den ∣ m) → L ∣ m := by
  intro rows
  induction rows with
  | nil =>
    intro l _ hl
    exact ⟨l, rfl, hl, dvd_refl l, fun i hi => absurd hi (List.not_mem_nil i),
      fun m hm _ => hm⟩
  | cons i rows ih =>
    intro l hrows hl
    have hi := hrows i (List.mem_cons_self i rows)
    obtain ⟨L, hL, hpos, hdvd, hall, hleast⟩ :=
      ih (fmpz_lcm l (mat.entries i j).den)
        (fun k hk => hrows k (List.mem_cons_of_mem i hk)) (fmpz_lcm_pos hl hi.2)
    refine ⟨L, ?_, hpos, ?_, ?_, ?_⟩
    · simp only [lcm_loop, fmpq_mat_entry_of_lt mat hi.1 hj, hL]
    · exact dvd_trans Int.dvd_lcm_left hdvd
    · intro k hk
      rcases List.mem_cons.mp hk with rfl | hk
      · exact dvd_trans Int.dvd_lcm_right hdvd
      · exact hall k hk
    · intro m hm hms
      exact hleast m (Int.lcm_dvd hm (hms i (List.mem_cons_self i rows)))
        (fun k hk => hms k (List.mem_cons_of_mem i hk))

/-- The common denominator of a column with positive denominators is their
least common multiple. -/
theorem column_lcm_spec (mat : fmpq_mat) (j : Nat) (hr : 0 < mat.r) (hj : j < mat.c)
    (hpos : ∀ i, i < mat.r → 0 < (mat.entries i j).den) :
    ∃ L, column_lcm mat j = some L ∧ 0 < L ∧
      (∀ i, i < mat.r → (mat.entries i j).den ∣ L) ∧
      ∀ m : Int, (∀ i, i < mat.r → (mat.entries i j).den ∣ m) → L ∣ m := by
  have hmem : ∀ i ∈ List.range' 1 (mat.r - 1), i < mat.r ∧ 0 < (mat.entries i j).den := by
    intro i hi
    have h := List.mem_range'_1.mp hi
    exact ⟨by omega, hpos i (by omega)⟩
  obtain ⟨L, hL, hLpos, hdvd, hall, hleast⟩ :=
    lcm_loop_spec mat j hj (List.range' 1 (mat.r - 1)) (mat.entries 0 j).den hmem (hpos 0 hr)
  refine ⟨L, ?_, hLpos, ?_, ?_⟩
  · simp only [column_lcm, fmpq_mat_entry_of_lt mat hr hj, hL]
  · intro i hi
    by_cases h0 : i = 0
    · subst h0; exact hdvd
    · exact hall i (List.mem_range'_1.mpr (by omega))
  · intro m hm
    exact hleast m (hm 0 hr) (fun i hi => hm i (hmem i hi).1)

theorem copy_loop_spec (mat : fmpq_mat) (j : Nat) (hj : j < mat.c) :
    ∀ (rows : List Nat) (num : Nat → Nat → Int), (∀ i ∈ rows, i < mat.r) →
      ∃ num1, copy_loop mat j rows num = some num1 ∧
        ∀ a b, num1 a b =
          if a ∈ rows ∧ b = j then (mat.entries a j).num else num a b := by
  intro rows
  induction rows with
  | nil =>
    intro num _
    exact ⟨num, rfl, fun a b => by simp⟩
  | cons i rows ih =>
    intro num hrows
    obtain ⟨num1, h1, h2⟩ := ih (set_entry num i j (mat.entries i j).num)
      (fun k hk => hrows k (List.mem_cons_of_mem i hk))
    refine ⟨num1, ?_, ?_⟩
    · simp only [copy_loop,
        fmpq_mat_entry_of_lt mat (hrows i (List.mem_cons_self i rows)) hj, h1]
    · intro a b
      rw [h2 a b]
      unfold set_entry
      by_cases ha : a ∈ rows <;> by_cases hb : b = j <;> by_cases hai : a = i <;>
        simp [ha, hb, hai]

theorem fmpz_divexact_of_dvd {a b : Int} (hb : b ≠ 0) (h : b ∣ a) :
    fmpz_divexact a b = some (a / b) := by
  simp [fmpz_divexact, hb, Int.emod_eq_zero_of_dvd h]

theorem scale_loop_spec (mat : fmpq_mat) (lcm : Int) (j : Nat) (hj : j < mat.c) :
    ∀ (rows : List Nat) (num : Nat → Nat → Int),
      (∀ i ∈ rows, i < mat.r ∧ (mat.entries i j).den ≠ 0 ∧ (mat.entries i j).den ∣ lcm) →
      ∃ num1, scale_loop mat lcm j rows num = some num1 ∧
        ∀ a b, num1 a b =
          if a ∈ rows ∧ b = j then (mat.entries a j).num * (lcm / (mat.entries a j).den)
          else num a b := by
  intro rows
  induction rows with
  | nil =>
    intro num _
    exact ⟨num, rfl, fun a b => by simp⟩
  | cons i rows ih =>
    intro num hrows
    have hi := hrows i (List.mem_cons_self i rows)
    obtain ⟨num1, h1, h2⟩ := ih
      (set_entry num i j ((mat.entries i j).num * (lcm / (mat.entries i j).den)))
      (fun k hk => hrows k (List.mem_cons_of_mem i hk))
    refine ⟨num1, ?_, ?_⟩
    · simp only [scale_loop, fmpq_mat_entry_of_lt mat hi.1 hj,
        fmpz_divexact_of_dvd hi.2.1 hi.2.2, h1]
    · intro a b
      rw [h2 a b]
      unfold set_entry
      by_cases ha : a ∈ rows <;> by_cases hb : b = j <;> by_cases hai : a = i <;>
        simp [ha, hb, hai]

/-- The value left in `num[i][j]` when the common denominator is `L`. -/
theorem colwise_column_spec (mat : fmpq_mat) (st : ColwiseState) (j : Nat)
    (hr : 0 < mat.r) (hj : j < mat.c)
    (hpos : ∀ i, i < mat.r → 0 < (mat.entries i j).den) :
    ∃ L st1, column_lcm mat j = some L ∧ colwise_column mat st j = some st1 ∧
      (∀ b, st1.den b = if b = j then L else st.den b) ∧
      ∀ a b, st1.num a b =
        if a < mat.r ∧ b = j then
          (if L = 1 then (mat.entries a j).num
            else (mat.entries a j).num * (L / (mat.entries a j).den))
        else st.num a b := by
  obtain ⟨L, hL, hLpos, hdvd, _⟩ := column_lcm_spec mat j hr hj hpos
  by_cases h1 : L = 1
  · obtain ⟨num1, hn1, hn2⟩ := copy_loop_spec mat j hj (List.range mat.r) st.num
      (fun i hi => List.mem_range.mp hi)
    refine ⟨L, ⟨num1, fun b => if b = j then L else st.den b⟩, hL, ?_, fun b => rfl, ?_⟩
    · simp only [colwise_column, hL, h1, if_true, hn1]
    · intro a b
      show num1 a b = _
      rw [hn2 a b]
      simp only [List.mem_range, h1, if_true]
  · obtain ⟨num1, hn1, hn2⟩ := scale_loop_spec mat L j hj (List.range mat.r) st.num
      (fun i hi => ⟨List.mem_range.mp hi,
        ne_of_gt (hpos i (List.mem_range.mp hi)), hdvd i (List.mem_range.mp hi)⟩)
    refine ⟨L, ⟨num1, fun b => if b = j then L else st.den b⟩, hL, ?_, fun b => rfl, ?_⟩
    · simp only [colwise_column, hL, h1, if_false, hn1]
    · intro a b
      show num1 a b = _
      rw [hn2 a b]
      simp only [List.mem_range, h1, if_false]

/-- The loop over the columns: every column of the list gets its common
denominator and its rescaled numerators, everything else is left as it was. -/
theorem colwise_loop_spec (mat : fmpq_mat) (hr : 0 < mat.r) :
    ∀ (cols : List Nat) (st : ColwiseState),
      (∀ j ∈ cols, j < mat.c ∧ ∀ i, i < mat.r → 0 < (mat.entries i j).den) →
      ∃ st1, colwise_loop mat cols st = some st1 ∧
        (∀ b ∈ cols, ∃ L, column_lcm mat b = some L ∧ st1.den b = L ∧
          ∀ a, a < mat.r → st1.num a b =
            if L = 1 then (mat.entries a b).num
            else (mat.entries a b).num * (L / (mat.entries a b).den)) ∧
        (∀ b, b ∉ cols → st1.den b = st.den b ∧ ∀ a, st1.num a b = st.num a b) := by
  intro cols
  induction cols with
  | nil =>
    intro st _
    exact ⟨st, rfl, fun b hb => absurd hb (List.not_mem_nil b), fun b _ => ⟨rfl, fun _ => rfl⟩⟩
  | cons j cols ih =>
    intro st hcols
    have hj := hcols j (List.mem_cons_self j cols)
    obtain ⟨L, st1, hL, hst1, hden1, hnum1⟩ := colwise_column_spec mat st j hr hj.1 hj.2
    obtain ⟨st2, hst2, hin, hout⟩ := ih st1 (fun k hk => hcols k (List.mem_cons_of_mem j hk))
    refine ⟨st2, ?_, ?_, ?_⟩
    · simp only [colwise_loop, hst1, hst2]
    · intro b hb
      by_cases hbc : b ∈ cols
      · exact hin b hbc
      · have hbj : b = j := by
          rcases List.mem_cons.mp hb with h | h
          · exact h
          · exact absurd h hbc
        subst hbj
        refine ⟨L, hL, ?_, ?_⟩
        · rw [(hout b hbc).1, hden1 b, if_pos rfl]
        · intro a ha
          rw [(hout b hbc).2 a, hnum1 a b, if_pos ⟨ha, rfl⟩]
    · intro b hb
      have hbj : b ≠ j := fun h => hb (h ▸ List.mem_cons_self j cols)
      have hbc : b ∉ cols := fun h => hb (List.mem_cons_of_mem j h)
      refine ⟨?_, fun a => ?_⟩
      · rw [(hout b hbc).1, hden1 b, if_neg hbj]
      · rw [(hout b hbc).2 a, hnum1 a b, if_neg (fun h => hbj h.2)]

theorem fmpq_mat_is_empty_false {mat : fmpq_mat} (h : fmpq_mat_is_empty mat = false) :
    0 < mat.r ∧ 0 < mat.c := by
  unfold fmpq_mat_is_empty at h
  simp only [decide_eq_false_iff_not, not_or] at h
  omega

/-- Full description of `fmpq_mat_get_fmpz_mat_colwise` on a non-empty matrix
with positive denominators. -/
theorem colwise_spec (num : Nat → Nat → Int) (den : Nat → Int) (mat : fmpq_mat)
    (hne : fmpq_mat_is_empty mat = false)
    (hpos : ∀ i j, i < mat.r → j < mat.c → 0 < (mat.entries i j).den) :
    ∃ st, fmpq_mat_get_fmpz_mat_colwise num den mat = some st ∧
      ∀ j, j < mat.c → ∃ L, column_lcm mat j = some L ∧ st.den j = L ∧
        ∀ i, i < mat.r → st.num i j =
          if L = 1 then (mat.entries i j).num
          else (mat.entries i j).num * (L / (mat.entries i j).den) := by
  have hrc := fmpq_mat_is_empty_false hne
  obtain ⟨st, hst, hin, _⟩ := colwise_loop_spec mat hrc.1 (List.range mat.c) ⟨num, den⟩
    (fun j hj => ⟨List.mem_range.mp hj, fun i hi => hpos i j hi (List.mem_range.mp hj)⟩)
  refine ⟨st, ?_, fun j hj => hin j (List.mem_range.mpr hj)⟩
  simp only [fmpq_mat_get_fmpz_mat_colwise, hne, Bool.false_eq_true, if_false, hst]

/-- C10: for a non-empty `r x c` rational matrix whose entries have positive
denominators, `fmpq_mat_get_fmpz_mat_colwise` returns, and for every entry
`den[j]` is positive,
`num[i][j] * denominator(mat[i][j]) = numerator(mat[i][j]) * den[j]` and, as
rational numbers, `num[i][j] / den[j] = mat[i][j]`, whichever branch column
`j` took; the division `den[j] / denominator(mat[i][j])` of the general branch
has no remainder. -/
theorem colwise_num_times_den (num : Nat → Nat → Int) (den : Nat → Int) (mat : fmpq_mat)
    (hne : fmpq_mat_is_empty mat = false)
    (hpos : ∀ i j, i < mat.r → j < mat.c → 0 < (mat.entries i j).den) :
    ∃ st, fmpq_mat_get_fmpz_mat_colwise num den mat = some st ∧
      ∀ i j, i < mat.r → j < mat.c →
        0 < st.den j ∧
        st.num i j * (mat.entries i j).den = (mat.entries i j).num * st.den j ∧
        st.den j % (mat.entries i j).den = 0 ∧
        (st.num i j : ℚ) / (st.den j : ℚ) =
          ((mat.entries i j).num : ℚ) / ((mat.entries i j).den : ℚ) := by
  have hrc := fmpq_mat_is_empty_false hne
  obtain ⟨st, hst, hcol⟩ := colwise_spec num den mat hne hpos
  refine ⟨st, hst, fun i j hi hj => ?_⟩
  obtain ⟨L, hL, hden, hnum⟩ := hcol j hj
  obtain ⟨L1, hL1, hL1pos, hdvd, _⟩ :=
    column_lcm_spec mat j hrc.1 hj (fun k hk => hpos k j hk hj)
  have hLL : L1 = L := Option.some.inj (hL1.symm.trans hL)
  subst hLL
  have hd := hdvd i hi
  have hdpos := hpos i j hi hj
  have hmul : st.num i j * (mat.entries i j).den = (mat.entries i j).num * st.den j := by
    rw [hden, hnum i hi]
    by_cases h1 : L1 = 1
    · rw [if_pos h1, h1]
      rw [h1] at hd
      rw [Int.eq_one_of_dvd_one (le_of_lt hdpos) hd]
    · rw [if_neg h1, mul_assoc, Int.ediv_mul_cancel hd]
  have hden0 : (st.den j : ℚ) ≠ 0 := by
    rw [hden]
    exact_mod_cast ne_of_gt hL1pos
  have hd0 : ((mat.entries i j).den : ℚ) ≠ 0 := by
    exact_mod_cast ne_of_gt hdpos
  refine ⟨by rw [hden]; exact hL1pos, hmul, by rw [hden]; exact Int.emod_eq_zero_of_dvd hd, ?_⟩
  rw [div_eq_div_iff hden0 hd0]
  exact_mod_cast hmul

theorem colwise_num_times_den_witness :
    fmpq_mat_is_empty mat_two = false ∧
    (fmpq_mat_get_fmpz_mat_colwise (fun _ _ => 0) (fun _ => 0) mat_two).map
      (fun st => (st.num 0 0, st.num 1 0, st.den 0, st.num 0 1, st.num 1 1, st.den 1)) =
        some (3, 5, 6, 3, 7, 1) ∧
    ∃ st, fmpq_mat_get_fmpz_mat_colwise (fun _ _ => 0) (fun _ => 0) mat_two = some st ∧
      ∀ i j, i < mat_two.r → j < mat_two.c →
        0 < st.den j ∧
        st.num i j * (mat_two.entries i j).den = (mat_two.entries i j).num * st.den j ∧
        st.den j % (mat_two.entries i j).den = 0 ∧
        (st.num i j : ℚ) / (st.den j : ℚ) =
          ((mat_two.entries i j).num : ℚ) / ((mat_two.entries i j).den : ℚ) :=
  ⟨by decide, by decide,
    colwise_num_times_den (fun _ _ => 0) (fun _ => 0) mat_two (by decide)
      (fun i j hi hj => by
        have hi2 : i < 2 := hi
        have hj2 : j < 2 := hj
        interval_cases i <;> interval_cases j <;> decide)⟩

/-- C11: for a non-empty `r x c` rational matrix with positive denominators,
`fmpq_mat_get_fmpz_mat_colwise` sets every `den[j]`, `j < c`, to the least
common multiple of the denominators of column `j`: it is positive, a multiple
of each of them, and divides every positive common multiple; and it is the
same for any other such matrix with the same column `j`, whatever the other
columns (and the previous contents of `num` and `den`) are. -/
theorem colwise_den_is_lcm (num : Nat → Nat → Int) (den : Nat → Int) (mat : fmpq_mat)
    (hne : fmpq_mat_is_empty mat = false)
    (hpos : ∀ i j, i < mat.r → j < mat.c → 0 < (mat.entries i j).den) :
    ∃ st, fmpq_mat_get_fmpz_mat_colwise num den mat = some st ∧
      ∀ j, j < mat.c →
        0 < st.den j ∧
        (∀ i, i < mat.r → (mat.entries i j).den ∣ st.den j) ∧
        (∀ m : Int, 0 < m → (∀ i, i < mat.r → (mat.entries i j).den ∣ m) → st.den j ∣ m) ∧
        ∀ (num1 : Nat → Nat → Int) (den1 : Nat → Int) (mat1 : fmpq_mat),
          mat1.r = mat.r → j < mat1.c →
          (∀ i k, i < mat1.r → k < mat1.c → 0 < (mat1.entries i k).den) →
          (∀ i, i < mat.r → mat1.entries i j = mat.entries i j) →
          ∃ st1, fmpq_mat_get_fmpz_mat_colwise num1 den1 mat1 = some st1 ∧
            st1.den j = st.den j := by
  have hrc := fmpq_mat_is_empty_false hne
  obtain ⟨st, hst, hcol⟩ := colwise_spec num den mat hne hpos
  refine ⟨st, hst, fun j hj => ?_⟩
  obtain ⟨L, hL, hden, _⟩ := hcol j hj
  obtain ⟨L0, hL0, hLpos, hdvd, hleast⟩ :=
    column_lcm_spec mat j hrc.1 hj (fun k hk => hpos k j hk hj)
  have hLL : L0 = L := Option.some.inj (hL0.symm.trans hL)
  subst hLL
  rw [hden]
  refine ⟨hLpos, hdvd, fun m _ hm => hleast m hm, ?_⟩
  intro num1 den1 mat1 hr1 hj1 hpos1 hsame
  have hne1 : fmpq_mat_is_empty mat1 = false := by
    unfold fmpq_mat_is_empty
    simp only [decide_eq_false_iff_not, not_or]
    omega
  obtain ⟨st1, hst1, hcol1⟩ := colwise_spec num1 den1 mat1 hne1 hpos1
  refine ⟨st1, hst1, ?_⟩
  obtain ⟨L1, hL1, hden1, _⟩ := hcol1 j hj1
  obtain ⟨L2, hL2, hL2pos, hdvd2, hleast2⟩ :=
    column_lcm_spec mat1 j (by omega) hj1 (fun k hk => hpos1 k j hk hj1)
  have hLL : L2 = L1 := Option.some.inj (hL2.symm.trans hL1)
  subst hLL
  rw [hden1]
  apply Int.dvd_antisymm (le_of_lt hL2pos) (le_of_lt hLpos)
  · apply hleast2
    intro i hi
    rw [hsame i (by omega)]
    exact hdvd i (by omega)
  · apply hleast
    intro i hi
    rw [← hsame i hi]
    exact hdvd2 i (by omega)

theorem colwise_den_is_lcm_witness :
    fmpq_mat_is_empty mat_two = false ∧
    ∃ st, fmpq_mat_get_fmpz_mat_colwise (fun _ _ => 0) (fun _ => 0) mat_two = some st ∧
      ∀ j, j < mat_two.c →
        0 < st.den j ∧
        (∀ i, i < mat_two.r → (mat_two.entries i j).den ∣ st.den j) ∧
        (∀ m : Int, 0 < m → (∀ i, i < mat_two.r → (mat_two.entries i j).den ∣ m) →
          st.den j ∣ m) ∧
        ∀ (num1 : Nat → Nat → Int) (den1 : Nat → Int) (mat1 : fmpq_mat),
          mat1.r = mat_two.r → j < mat1.c →
          (∀ i k, i < mat1.r → k < mat1.c → 0 < (mat1.entries i k).den) →
          (∀ i, i < mat_two.r → mat1.entries i j = mat_two.entries i j) →
          ∃ st1, fmpq_mat_get_fmpz_mat_colwise num1 den1 mat1 = some st1 ∧
            st1.den j = st.den j :=
  ⟨by decide, colwise_den_is_lcm (fun _ _ => 0) (fun _ => 0) mat_two (by decide)
    (fun i j hi hj => by
      have hi2 : i < 2 := hi
      have hj2 : j < 2 := hj
      interval_cases i <;> interval_cases j <;> decide)⟩

/-- C20: when `mat` is empty (`r = 0` or `c = 0`, which is what the guard
tests), `fmpq_mat_get_fmpz_mat_colwise` returns with `num` and `den` as they
were; when it is not, `r >= 1` and the read of row `0` that seeds the lcm of
each column `j < c` is an access inside the matrix. -/
theorem colwise_empty_unchanged (num : Nat → Nat → Int) (den : Nat → Int) (mat : fmpq_mat) :
    (fmpq_mat_is_empty mat = true ↔ (mat.r = 0 ∨ mat.c = 0)) ∧
    ((mat.r = 0 ∨ mat.c = 0) →
      fmpq_mat_get_fmpz_mat_colwise num den mat = some { num := num, den := den }) ∧
    (fmpq_mat_is_empty mat = false →
      1 ≤ mat.r ∧ ∀ j, j < mat.c → fmpq_mat_entry mat 0 j = some (mat.entries 0 j)) := by
  have hiff : fmpq_mat_is_empty mat = true ↔ (mat.r = 0 ∨ mat.c = 0) := by
    unfold fmpq_mat_is_empty
    simp only [decide_eq_true_eq]
  refine ⟨hiff, fun h => ?_, fun h => ?_⟩
  · simp only [fmpq_mat_get_fmpz_mat_colwise, hiff.mpr h, if_true]
  · have hrc := fmpq_mat_is_empty_false h
    exact ⟨hrc.1, fun j hj => fmpq_mat_entry_of_lt mat hrc.1 hj⟩

theorem colwise_empty_unchanged_witness :
    (mat_no_row.r = 0 ∨ mat_no_row.c = 0) ∧
    fmpq_mat_get_fmpz_mat_colwise (fun _ _ => 7) (fun _ => 9) mat_no_row =
      some { num := fun _ _ => 7, den := fun _ => 9 } ∧
    fmpq_mat_is_empty mat_two = false ∧
    (1 ≤ mat_two.r ∧ ∀ j, j < mat_two.c →
      fmpq_mat_entry mat_two 0 j = some (mat_two.entries 0 j)) :=
  ⟨Or.inl rfl,
    (colwise_empty_unchanged (fun _ _ => 7) (fun _ => 9) mat_no_row).2.1 (Or.inl rfl),
    by decide,
    (colwise_empty_unchanged (fun _ _ => 0) (fun _ => 0) mat_two).2.2 (by decide)⟩

/-! ## The fold loop: iterations and the index -/

/-- One iteration of the fold loop at an index inside the buffer succeeds,
keeps the length and, when the index is positive, decrements it without
wrapping; the entries play no role. -/
theorem fold_body_some (n : Int) (P : Nat) (k : Nat) (b : List Int)
    (hk : k < b.length) (h0 : 0 < k) (hW : k < ulong_size) :
    ∃ b1, fold_body n P ⟨k, b⟩ = some ⟨k - 1, b1⟩ ∧ b1.length = b.length := by
  unfold fold_body
  simp only [hk, if_true, ulong_dec_pos h0 hW]
  refine ⟨_, rfl, ?_⟩
  split <;> simp

/-- The indices visited by the fold loop, for arbitrary entries. -/
theorem fold_loop_trace (n : Int) (P : Nat) (hP : 0 < P) :
    ∀ (d k : Nat) (b : List Int) (fuel : Nat), k < b.length → b.length ≤ ulong_size →
      d = k + 1 - P → d < fuel →
      ∃ b1, fold_loop n P fuel ⟨k, b⟩ = some (⟨k - d, b1⟩, down_from k d) ∧
        b1.length = b.length := by
  intro d
  induction d with
  | zero =>
    intro k b fuel _ _ hd hfuel
    obtain ⟨fuel, rfl⟩ : ∃ f, fuel = f + 1 := ⟨fuel - 1, by omega⟩
    refine ⟨b, ?_, rfl⟩
    have : ¬ P ≤ k := by omega
    simp [fold_loop, this, down_from]
  | succ d ih =>
    intro k b fuel hk hW hd hfuel
    obtain ⟨fuel, rfl⟩ : ∃ f, fuel = f + 1 := ⟨fuel - 1, by omega⟩
    have hPk : P ≤ k := by omega
    obtain ⟨b1, hb1, hlen1⟩ := fold_body_some n P k b hk (by omega) (by omega)
    obtain ⟨b2, hb2, hlen2⟩ :=
      ih (k - 1) b1 fuel (by omega) (by omega) (by omega) (by omega)
    refine ⟨b2, ?_, by omega⟩
    simp only [fold_loop, hPk, if_true, hb1, hb2]
    rw [down_from_succ k d, show k - (d + 1) = k - 1 - d by omega]

theorem mem_down_from {k d i : Nat} (h : i ∈ down_from k d) : i ≤ k ∧ k + 1 ≤ i + d := by
  unfold down_from at h
  obtain ⟨t, ht, rfl⟩ := List.mem_map.mp h
  have := List.mem_range.mp ht
  omega

/-- C15: for `P >= 1` and a product buffer of length `L >= 1` (a machine
word) with arbitrary entries, the fold loop of `unity_zp_sqr` returns after
exactly `max(0, L - P)` iterations, for the indices `L - 1, L - 2, ...` in
this order; every index `i` it visits satisfies `P <= i < L`, so that `i` and
`i - P` lie in `[0, L)` and `i--` does not wrap (`i >= 1`), and the index at
exit is `L - 1 - max(0, L - P)`. -/
theorem fold_iteration_count (n : Int) (P : Nat) (c : List Int) (fuel : Nat)
    (hP : 1 ≤ P) (hL : 1 ≤ c.length) (hW : c.length ≤ ulong_size)
    (hfuel : c.length - P < fuel) :
    ∃ s tr, fold n P fuel c = some (s, tr) ∧
      tr.length = c.length - P ∧
      tr = down_from (c.length - 1) (c.length - P) ∧
      s.i = c.length - 1 - (c.length - P) ∧
      ∀ i ∈ tr, P ≤ i ∧ i < c.length ∧ i - P < c.length ∧ 1 ≤ i ∧ ulong_dec i = i - 1 := by
  obtain ⟨b1, hb1, _⟩ := fold_loop_trace n P hP (c.length - P) (c.length - 1) c fuel
    (by omega) hW (by omega) hfuel
  have hf : fold n P fuel c =
      some (⟨c.length - 1 - (c.length - P), b1⟩,
        down_from (c.length - 1) (c.length - P)) := by
    unfold fold
    rw [ulong_of_pred_pos hL hW]
    exact hb1
  refine ⟨_, _, hf, ?_, rfl, rfl, ?_⟩
  · simp [down_from]
  · intro i hi
    have h := mem_down_from hi
    have hW2 : i < ulong_size := by omega
    exact ⟨by omega, by omega, by omega, by omega, ulong_dec_pos (by omega) hW2⟩

theorem fold_iteration_count_witness :
    ∃ s tr, fold 101 5 5 [4, 12, 9, 4, 22, 24, 1, 8, 16] = some (s, tr) ∧
      tr.length = ([4, 12, 9, 4, 22, 24, 1, 8, 16] : List Int).length - 5 ∧
      tr = down_from (([4, 12, 9, 4, 22, 24, 1, 8, 16] : List Int).length - 1)
        (([4, 12, 9, 4, 22, 24, 1, 8, 16] : List Int).length - 5) ∧
      s.i = ([4, 12, 9, 4, 22, 24, 1, 8, 16] : List Int).length - 1 -
        (([4, 12, 9, 4, 22, 24, 1, 8, 16] : List Int).length - 5) ∧
      ∀ i ∈ tr, 5 ≤ i ∧ i < ([4, 12, 9, 4, 22, 24, 1, 8, 16] : List Int).length ∧
        i - 5 < ([4, 12, 9, 4, 22, 24, 1, 8, 16] : List Int).length ∧ 1 ≤ i ∧
        ulong_dec i = i - 1 :=
  fold_iteration_count 101 5 [4, 12, 9, 4, 22, 24, 1, 8, 16] 5
    (by decide) (by decide) (by decide) (by decide)

/-- C16: for `(p, exp)` other than `(5, 1)`, `unity_zp_sqr_inplace` is the
call of one routine, chosen by `(p, exp)` alone: `unity_zp_sqr7` when
`(p, exp) = (7, 1)` and the generic `unity_zp_sqr` otherwise; the list of
routines invoked is `[sqr7]`, respectively `[sqr]`, and never contains
`unity_zp_sqr5`. -/
theorem unity_zp_sqr_inplace_calls_not_five (sqr5 sqr7 sqr : Routine) (w : World)
    (f g : Nat) (h : ¬ ((w.elems f).p = 5 ∧ (w.elems f).exp = 1)) :
    unity_zp_sqr_inplace sqr5 sqr7 sqr w f g =
      (if (w.elems f).p = 7 ∧ (w.elems f).exp = 1 then
        (sqr7 w f g).map (fun w2 => (w2, [Callee.sqr7]))
      else (sqr w f g).map (fun w2 => (w2, [Callee.sqr]))) ∧
    ∀ o, unity_zp_sqr_inplace sqr5 sqr7 sqr w f g = some o →
      o.2.length = 1 ∧ Callee.sqr5 ∉ o.2 ∧
      (Callee.sqr7 ∈ o.2 ↔ ((w.elems f).p = 7 ∧ (w.elems f).exp = 1)) ∧
      (Callee.sqr ∈ o.2 ↔ ¬ ((w.elems f).p = 7 ∧ (w.elems f).exp = 1)) := by
  have heq : unity_zp_sqr_inplace sqr5 sqr7 sqr w f g =
      (if (w.elems f).p = 7 ∧ (w.elems f).exp = 1 then
        (sqr7 w f g).map (fun w2 => (w2, [Callee.sqr7]))
      else (sqr w f g).map (fun w2 => (w2, [Callee.sqr]))) := by
    unfold unity_zp_sqr_inplace
    simp only [h, if_false, List.nil_append]
  refine ⟨heq, fun o ho => ?_⟩
  rw [heq] at ho
  by_cases h7 : (w.elems f).p = 7 ∧ (w.elems f).exp = 1
  · rw [if_pos h7] at ho
    obtain ⟨w2, _, rfl⟩ := Option.map_eq_some'.mp ho
    simp [h7]
  · rw [if_neg h7] at ho
    obtain ⟨w2, _, rfl⟩ := Option.map_eq_some'.mp ho
    simp [h7]

theorem unity_zp_sqr_inplace_calls_not_five_witness :
    ¬ ((world_seven.elems 1).p = 5 ∧ (world_seven.elems 1).exp = 1) ∧
    (unity_zp_sqr_inplace (unity_zp_sqr id 1) (unity_zp_sqr id 1) (unity_zp_sqr id 1)
      world_seven 1 0).map (fun o => o.2) = some [Callee.sqr7] :=
  ⟨by decide, by
    rw [(unity_zp_sqr_inplace_calls_not_five (unity_zp_sqr id 1) (unity_zp_sqr id 1)
      (unity_zp_sqr id 1) world_seven 1 0 (by decide)).1]
    decide⟩

theorem fold_loop_zero_none (n : Int) :
    ∀ (fuel : Nat) (s : FoldState), fold_loop n 0 fuel s = none := by
  intro fuel
  induction fuel with
  | zero => intro s; rfl
  | succ fuel ih =>
    intro s
    unfold fold_loop
    simp only [Nat.zero_le, if_true]
    cases fold_body n 0 s with
    | none => rfl
    | some s1 => simp only [ih s1]

/-- C18: when `p^exp` is `0` as an unsigned word (`p = 0` with `exp >= 1`, or
`2^64`, which wraps to `0`), the guard `i >= p` holds for every `i`; on a
non-empty product the iteration with `i = 0` is followed by the decrement
that wraps `i` to `2^64 - 1`, and the loop never exits through its guard:
whatever the fuel, no final state is returned. -/
theorem fold_guard_always_true (n : Int) (c : List Int) (hc : 1 ≤ c.length) :
    (∀ e, n_pow 0 (e + 1) = 0) ∧ n_pow 2 64 = 0 ∧
    (∀ e i : Nat, n_pow 0 (e + 1) ≤ i) ∧ (∀ i : Nat, n_pow 2 64 ≤ i) ∧
    ulong_dec 0 = 2 ^ 64 - 1 ∧
    (∃ b, fold_body n 0 ⟨0, c⟩ = some ⟨2 ^ 64 - 1, b⟩) ∧
    (∀ fuel, fold n 0 fuel c = none) ∧
    (∀ reduce fuel f g, f.p = 0 → 1 ≤ f.exp → fmpz_mod_poly_sqr f.n g.poly = c →
      unity_zp_sqr_run reduce fuel f g = none) := by
  have hpow : ∀ e, n_pow 0 (e + 1) = 0 := by
    intro e
    simp [n_pow]
  have hpow2 : n_pow 2 64 = 0 := by decide
  refine ⟨hpow, hpow2, fun e i => by rw [hpow e]; exact Nat.zero_le i,
    fun i => by rw [hpow2]; exact Nat.zero_le i, by decide, ?_, ?_, ?_⟩
  · unfold fold_body
    have h0 : 0 < c.length := hc
    simp only [h0, if_true]
    exact ⟨_, by rw [show ulong_dec 0 = 2 ^ 64 - 1 by decide]⟩
  · intro fuel
    exact fold_loop_zero_none n fuel _
  · intro reduce fuel f g hp he hcg
    obtain ⟨e, he1⟩ : ∃ e, f.exp = e + 1 := ⟨f.exp - 1, by omega⟩
    unfold unity_zp_sqr_run
    have hne : c.length ≠ 0 := by omega
    simp only [hcg, hne, if_false, hp, he1, hpow e, fold, fold_loop_zero_none]

theorem fold_guard_always_true_witness :
    1 ≤ ([4] : List Int).length ∧
    (∃ b, fold_body 101 0 ⟨0, [4]⟩ = some ⟨2 ^ 64 - 1, b⟩) ∧
    (∀ fuel, fold 101 0 fuel [4] = none) :=
  ⟨by decide, (fold_guard_always_true 101 [4] (by decide)).2.2.2.2.2.1,
    (fold_guard_always_true 101 [4] (by decide)).2.2.2.2.2.2.1⟩

/-! ## `fmpz_mat_randajtai`: the abort and the cells touched -/

/-- C12: `fmpz_mat_randajtai` aborts exactly when the matrix is not square
(`mat->c != mat->r`); on that path the exception message has been printed, no
entry has been read or written and the matrix is as it was. -/
theorem fmpz_mat_randajtai_abort_iff (env : AjtaiEnv) (mat : fmpz_mat) :
    ((fmpz_mat_randajtai env mat).aborted = true ↔ mat.c ≠ mat.r) ∧
    (mat.c ≠ mat.r →
      (fmpz_mat_randajtai env mat).printed =
        ["Exception: fmpz_mat_ajtai called on an ill-formed matrix\n"] ∧
      (fmpz_mat_randajtai env mat).trace = [] ∧
      (fmpz_mat_randajtai env mat).mat = mat) ∧
    (mat.c = mat.r → (fmpz_mat_randajtai env mat).printed = []) := by
  refine ⟨?_, fun h => ?_, fun h => ?_⟩
  · by_cases h : mat.c = mat.r
    · simp [fmpz_mat_randajtai, h]
    · simp [fmpz_mat_randajtai, h]
  · simp [fmpz_mat_randajtai, h]
  · simp [fmpz_mat_randajtai, h]

theorem fmpz_mat_randajtai_abort_iff_witness :
    mat_two_by_three.c ≠ mat_two_by_three.r ∧
    (fmpz_mat_randajtai env_zero mat_two_by_three).aborted = true ∧
    (fmpz_mat_randajtai env_zero mat_two_by_three).printed =
      ["Exception: fmpz_mat_ajtai called on an ill-formed matrix\n"] ∧
    (fmpz_mat_randajtai env_zero mat_two_by_three).trace = [] ∧
    (fmpz_mat_randajtai env_zero mat_two_by_three).mat = mat_two_by_three :=
  ⟨by decide,
    (fmpz_mat_randajtai_abort_iff env_zero mat_two_by_three).1.mpr (by decide),
    (fmpz_mat_randajtai_abort_iff env_zero mat_two_by_three).2.1 (by decide)⟩

theorem ajtai_inner_trace_mono (env : AjtaiEnv) (i : Nat) (tmp : Int) (x : Nat × Nat) :
    ∀ (js : List Nat) (st : AjtaiState), x ∈ st.trace →
      x ∈ (ajtai_inner env i tmp js st).trace := by
  intro js
  induction js with
  | nil => intro st h; exact h
  | cons j js ih =>
    intro st h
    unfold ajtai_inner
    apply ih
    simp [h]

theorem ajtai_inner_mem (env : AjtaiEnv) (i : Nat) (tmp : Int) (k : Nat) :
    ∀ (js : List Nat) (st : AjtaiState), k ∈ js →
      (k, i) ∈ (ajtai_inner env i tmp js st).trace ∧
      (i, k) ∈ (ajtai_inner env i tmp js st).trace := by
  intro js
  induction js with
  | nil => intro st h; exact absurd h (List.not_mem_nil k)
  | cons j js ih =>
    intro st h
    unfold ajtai_inner
    rcases List.mem_cons.mp h with rfl | h
    · constructor
      · apply ajtai_inner_trace_mono
        by_cases hc : env.coin k i <;> simp [hc]
      · apply ajtai_inner_trace_mono
        simp
    · exact ih _ h

theorem ajtai_outer_trace_mono (env : AjtaiEnv) (d : Nat) (x : Nat × Nat) :
    ∀ (rows : List Nat) (st : AjtaiState), x ∈ st.trace →
      x ∈ (ajtai_outer env d rows st).trace := by
  intro rows
  induction rows with
  | nil => intro st h; exact h
  | cons i rows ih =>
    intro st h
    unfold ajtai_outer
    apply ih
    apply ajtai_inner_trace_mono
    simp [h]

/-- C17 (the code at the failing input): on a square `d x d` matrix with
`d >= 1` the inner loop runs up to `j = d` inclusive, so that in row `i = 0`
`fmpz_mat_randajtai` touches the cells `(d, 0)` and `(0, d)`, whose row,
respectively column, index `d` is outside `[0, d)`. -/
theorem fmpz_mat_randajtai_touches_index_d (env : AjtaiEnv) (mat : fmpz_mat)
    (hsq : mat.c = mat.r) (hd : 1 ≤ mat.r) :
    (fmpz_mat_randajtai env mat).aborted = false ∧
    (mat.r, 0) ∈ (fmpz_mat_randajtai env mat).trace ∧
    (0, mat.r) ∈ (fmpz_mat_randajtai env mat).trace ∧
    ¬ (∀ x ∈ (fmpz_mat_randajtai env mat).trace, x.1 < mat.r ∧ x.2 < mat.r) := by
  obtain ⟨d, hd1⟩ : ∃ d, mat.r = d + 1 := ⟨mat.r - 1, by omega⟩
  have hmem : d + 1 ∈ List.range' (0 + 1) (d + 1 - 0) :=
    List.mem_range'_1.mpr (by omega)
  have hrun : ∀ st, (d + 1, 0) ∈ (ajtai_outer env (d + 1) (List.range (d + 1)) st).trace ∧
      (0, d + 1) ∈ (ajtai_outer env (d + 1) (List.range (d + 1)) st).trace := by
    intro st
    rw [List.range_succ_eq_map]
    unfold ajtai_outer
    exact ⟨ajtai_outer_trace_mono _ _ _ _ _ (ajtai_inner_mem env 0 _ (d + 1) _ _ hmem).1,
      ajtai_outer_trace_mono _ _ _ _ _ (ajtai_inner_mem env 0 _ (d + 1) _ _ hmem).2⟩
  have h1 : (fmpz_mat_randajtai env mat).trace =
      (ajtai_outer env (d + 1) (List.range (d + 1)) ⟨mat, []⟩).trace := by
    simp [fmpz_mat_randajtai, hsq, hd1]
  refine ⟨by simp [fmpz_mat_randajtai, hsq], ?_, ?_, ?_⟩
  · rw [h1, hd1]; exact (hrun _).1
  · rw [h1, hd1]; exact (hrun _).2
  · intro hall
    have := hall (mat.r, 0) (by rw [h1, hd1]; exact (hrun _).1)
    simp at this

theorem fmpz_mat_randajtai_touches_index_d_witness :
    (mat_square 1).c = (mat_square 1).r ∧ 1 ≤ (mat_square 1).r ∧
    (fmpz_mat_randajtai env_zero (mat_square 1)).trace =
      [(0, 0), (0, 0), (0, 0), (1, 0), (0, 1)] ∧
    (fmpz_mat_randajtai env_zero (mat_square 1)).aborted = false ∧
    (1, 0) ∈ (fmpz_mat_randajtai env_zero (mat_square 1)).trace ∧
    (0, 1) ∈ (fmpz_mat_randajtai env_zero (mat_square 1)).trace :=
  ⟨rfl, by decide, by decide,
    (fmpz_mat_randajtai_touches_index_d env_zero (mat_square 1) rfl (by decide)).1,
    (fmpz_mat_randajtai_touches_index_d env_zero (mat_square 1) rfl (by decide)).2.1,
    (fmpz_mat_randajtai_touches_index_d env_zero (mat_square 1) rfl (by decide)).2.2.1⟩

/-! ## `fmpz_factor_si`: factors and sign -/

theorem ajtai_diag_eq (x : Int) : ajtai_diag x = (x + 2) / 2 := by
  unfold ajtai_diag
  rw [Int.fdiv_eq_ediv _ (by norm_num)]
  norm_num

/-- The diagonal value made from a draw in `[0, 2^b - 1)`, `b >= 1`, lies in
`[1, 2^(b-1)]`. -/
theorem ajtai_diag_range (b : Nat) (x : Int) (hb : 1 ≤ b) (h0 : 0 ≤ x)
    (h1 : x < 2 ^ b - 1) : 1 ≤ ajtai_diag x ∧ ajtai_diag x ≤ 2 ^ (b - 1) := by
  obtain ⟨k, rfl⟩ : ∃ k, b = k + 1 := ⟨b - 1, by omega⟩
  rw [ajtai_diag_eq]
  have hp : (2 : Int) ^ (k + 1) = 2 * 2 ^ k := by rw [pow_succ]; ring
  rw [hp] at h1
  simp only [Nat.add_sub_cancel]
  constructor <;> omega

theorem ajtai_diag_endpoints (b : Nat) (hb : 1 ≤ b) :
    ajtai_diag 0 = 1 ∧ ajtai_diag (2 ^ b - 2) = 2 ^ (b - 1) ∧
    (0 : Int) ≤ 2 ^ b - 2 ∧ (2 ^ b - 2 : Int) < 2 ^ b - 1 := by
  obtain ⟨k, rfl⟩ : ∃ k, b = k + 1 := ⟨b - 1, by omega⟩
  have hp : (2 : Int) ^ (k + 1) = 2 * 2 ^ k := by rw [pow_succ]; ring
  have hk : (0 : Int) < 2 ^ k := by positivity
  rw [ajtai_diag_eq, ajtai_diag_eq, hp]
  simp only [Nat.add_sub_cancel]
  refine ⟨by norm_num, by omega, by omega, by omega⟩

/-- The entries after the inner loop of row `i` over the indices `js`, all
above `i`: cell `(j, i)` holds the draw with its sign, cell `(i, j)` is zero,
the other cells are as before. -/
theorem ajtai_inner_entries (env : AjtaiEnv) (i : Nat) (tmp : Int) (a b : Nat) :
    ∀ (js : List Nat) (st : AjtaiState), (∀ j ∈ js, i < j) →
      (ajtai_inner env i tmp js st).mat.entries a b =
        if b = i ∧ a ∈ js then
          (if env.coin a i then - env.randm a i tmp else env.randm a i tmp)
        else if a = i ∧ b ∈ js then 0
        else st.mat.entries a b := by
  intro js
  induction js with
  | nil => intro st _; simp [ajtai_inner]
  | cons j js ih =>
    intro st hjs
    have hj : i < j := hjs j (List.mem_cons_self j js)
    have hmat : ∀ (m : fmpz_mat),
        (((m.set j i (env.randm j i tmp)).set j i
          (- (m.set j i (env.randm j i tmp)).entries j i)).set i j 0).entries a b =
          (if a = i ∧ b = j then 0 else if a = j ∧ b = i then - env.randm j i tmp
            else m.entries a b) ∧
        ((m.set j i (env.randm j i tmp)).set i j 0).entries a b =
          (if a = i ∧ b = j then 0 else if a = j ∧ b = i then env.randm j i tmp
            else m.entries a b) := by
      intro m
      constructor
      · simp only [fmpz_mat.set, and_self, if_true]
        split_ifs <;> rfl
      · simp only [fmpz_mat.set, and_self, if_true]
    unfold ajtai_inner
    rw [ih _ (fun k hk => hjs k (List.mem_cons_of_mem j hk))]
    simp only [List.mem_cons]
    have hstep : ((if env.coin j i then
          ((st.mat.set j i (env.randm j i tmp)).set j i
            (- (st.mat.set j i (env.randm j i tmp)).entries j i))
        else st.mat.set j i (env.randm j i tmp)).set i j 0).entries a b =
        (if a = i ∧ b = j then 0
          else if a = j ∧ b = i then
            (if env.coin j i then - env.randm j i tmp else env.randm j i tmp)
          else st.mat.entries a b) := by
      by_cases hc : env.coin j i
      · simp only [hc, if_true]; exact (hmat st.mat).1
      · simp only [hc, Bool.false_eq_true, if_false]; exact (hmat st.mat).2
    rw [hstep]
    by_cases h1 : b = i ∧ a ∈ js
    · have h1c : b = i ∧ (a = j ∨ a ∈ js) := ⟨h1.1, Or.inr h1.2⟩
      rw [if_pos h1, if_pos h1c]
    · by_cases h2 : a = i ∧ b ∈ js
      · have hb := hjs b (List.mem_cons_of_mem j h2.2)
        have h1c : ¬ (b = i ∧ (a = j ∨ a ∈ js)) := fun h => by omega
        have h2c : a = i ∧ (b = j ∨ b ∈ js) := ⟨h2.1, Or.inr h2.2⟩
        rw [if_neg h1, if_pos h2, if_neg h1c, if_pos h2c]
      · by_cases h3 : a = i ∧ b = j
        · have h1c : ¬ (b = i ∧ (a = j ∨ a ∈ js)) := fun h => by omega
          have h2c : a = i ∧ (b = j ∨ b ∈ js) := ⟨h3.1, Or.inl h3.2⟩
          rw [if_neg h1, if_neg h2, if_pos h3, if_neg h1c, if_pos h2c]
        · by_cases h4 : a = j ∧ b = i
          · have h1c : b = i ∧ (a = j ∨ a ∈ js) := ⟨h4.2, Or.inl h4.1⟩
            rw [if_neg h1, if_neg h2, if_neg h3, if_pos h4, if_pos h1c, h4.1]
          · have h1c : ¬ (b = i ∧ (a = j ∨ a ∈ js)) := by
              rintro ⟨h5, h6 | h6⟩
              · exact h4 ⟨h6, h5⟩
              · exact h1 ⟨h5, h6⟩
            have h2c : ¬ (a = i ∧ (b = j ∨ b ∈ js)) := by
              rintro ⟨h5, h6 | h6⟩
              · exact h3 ⟨h5, h6⟩
              · exact h2 ⟨h5, h6⟩
            rw [if_neg h1, if_neg h2, if_neg h3, if_neg h4, if_neg h1c, if_neg h2c]

/-- The entries after one iteration of the outer loop, for row `i`. -/
theorem ajtai_outer_cons (env : AjtaiEnv) (d i : Nat) (rest : List Nat) (st : AjtaiState) :
    ∃ st1 : AjtaiState,
      ajtai_outer env d (i :: rest) st = ajtai_outer env d rest st1 ∧
      ∀ a b, st1.mat.entries a b =
        if b = i ∧ i < a ∧ a ≤ d then
          (if env.coin a i then - env.randm a i (2 ^ env.bits i - 1)
            else env.randm a i (2 ^ env.bits i - 1))
        else if a = i ∧ i < b ∧ b ≤ d then 0
        else if a = i ∧ b = i then ajtai_diag (env.randm i i (2 ^ env.bits i - 1))
        else st.mat.entries a b := by
  refine ⟨_, by rw [ajtai_outer], fun a b => ?_⟩
  have hjs : ∀ j ∈ List.range' (i + 1) (d - i), i < j := by
    intro j hj
    have := List.mem_range'_1.mp hj
    omega
  have hmem : ∀ k, k ∈ List.range' (i + 1) (d - i) ↔ (i < k ∧ k ≤ d) := by
    intro k
    rw [List.mem_range'_1]
    omega
  rw [ajtai_inner_entries env i _ a b _ _ hjs]
  simp only [hmem, fmpz_mat.set, and_self, if_true]
  split_ifs <;> rfl

/-- The outer loop leaves alone every cell whose smaller index is not a row
of the list. -/
theorem ajtai_outer_frame (env : AjtaiEnv) (d a b : Nat) :
    ∀ (rows : List Nat) (st : AjtaiState),
      (∀ i ∈ rows, ¬ (a = i ∧ i ≤ b) ∧ ¬ (b = i ∧ i ≤ a)) →
      (ajtai_outer env d rows st).mat.entries a b = st.mat.entries a b := by
  intro rows
  induction rows with
  | nil => intro st _; rfl
  | cons i rows ih =>
    intro st h
    obtain ⟨st1, h1, h2⟩ := ajtai_outer_cons env d i rows st
    have hi := h i (List.mem_cons_self i rows)
    rw [h1, ih st1 (fun k hk => h k (List.mem_cons_of_mem i hk)), h2 a b,
      if_neg (fun hc => hi.2 ⟨hc.1, by omega⟩), if_neg (fun hc => hi.1 ⟨hc.1, by omega⟩),
      if_neg (fun hc => hi.1 ⟨hc.1, by omega⟩)]

/-- The entries left by the outer loop in the rows it ran through: the
diagonal entry made from its draw, and below it the draws with their signs. -/
theorem ajtai_outer_entries (env : AjtaiEnv) (d : Nat) :
    ∀ (rows : List Nat) (st : AjtaiState), rows.Nodup → ∀ i ∈ rows,
      (ajtai_outer env d rows st).mat.entries i i =
        ajtai_diag (env.randm i i (2 ^ env.bits i - 1)) ∧
      ∀ j, i < j → j ≤ d → (ajtai_outer env d rows st).mat.entries j i =
        (if env.coin j i then - env.randm j i (2 ^ env.bits i - 1)
          else env.randm j i (2 ^ env.bits i - 1)) := by
  intro rows
  induction rows with
  | nil => intro st _ i hi; exact absurd hi (List.not_mem_nil i)
  | cons i0 rows ih =>
    intro st hnd i hi
    obtain ⟨st1, h1, h2⟩ := ajtai_outer_cons env d i0 rows st
    have hnd2 := List.nodup_cons.mp hnd
    rw [h1]
    rcases List.mem_cons.mp hi with rfl | hi
    · have hne : ∀ k ∈ rows, i ≠ k := fun k hk h => hnd2.1 (h ▸ hk)
      constructor
      · rw [ajtai_outer_frame env d i i rows st1
          (fun k hk => ⟨fun hc => hne k hk hc.1, fun hc => hne k hk hc.1⟩), h2 i i,
          if_neg (fun hc => by omega), if_neg (fun hc => by omega), if_pos ⟨rfl, rfl⟩]
      · intro j hj hjd
        rw [ajtai_outer_frame env d j i rows st1
          (fun k hk => ⟨fun hc => by omega, fun hc => hne k hk hc.1⟩), h2 j i,
          if_pos ⟨rfl, hj, hjd⟩]
    · exact ih st1 hnd2.2 i hi

theorem two_pow_sub_one_pos (b : Nat) (hb : 1 ≤ b) : (0 : Int) < 2 ^ b - 1 := by
  obtain ⟨k, rfl⟩ : ∃ k, b = k + 1 := ⟨b - 1, by omega⟩
  have hp : (2 : Int) ^ (k + 1) = 2 * 2 ^ k := by rw [pow_succ]; ring
  have hk : (0 : Int) < 2 ^ k := by positivity
  omega

/-- C21: in `fmpz_mat_randajtai`, for a bit count `b >= 1` and a draw `x` of
`fmpz_randm` in `[0, 2^b - 1)`, the diagonal value `floor((x + 2) / 2)` lies
in `[1, 2^(b-1)]` and `x`, negated or not, has absolute value at most
`2^b - 2`; the end points `1` and `2^(b-1)` are the values made from the draws
`0` and `2^b - 2`.  On a square matrix, with `bits >= 1` in every row and
draws below their bounds, the matrix returned has on its diagonal the value
made from the draw of the cell, in `[1, 2^(bits-1)]`, and below the diagonal
(row `j` of the inner loop, column `i`) entries of absolute value at most
`2^bits - 2`. -/
theorem fmpz_mat_randajtai_ranges (env : AjtaiEnv) (mat : fmpz_mat) (hsq : mat.c = mat.r)
    (hb : ∀ i, i < mat.r → 1 ≤ env.bits i)
    (hr : ∀ i j m, 0 < m → 0 ≤ env.randm i j m ∧ env.randm i j m < m) :
    (∀ (b : Nat) (x : Int), 1 ≤ b → 0 ≤ x → x < 2 ^ b - 1 →
      1 ≤ ajtai_diag x ∧ ajtai_diag x ≤ 2 ^ (b - 1) ∧
      |x| ≤ 2 ^ b - 2 ∧ |-x| ≤ 2 ^ b - 2) ∧
    (∀ b : Nat, 1 ≤ b →
      ajtai_diag 0 = 1 ∧ ajtai_diag (2 ^ b - 2) = 2 ^ (b - 1) ∧
      (0 : Int) ≤ 2 ^ b - 2 ∧ (2 ^ b - 2 : Int) < 2 ^ b - 1) ∧
    (∀ i, i < mat.r →
      (fmpz_mat_randajtai env mat).mat.entries i i =
        ajtai_diag (env.randm i i (2 ^ env.bits i - 1)) ∧
      1 ≤ (fmpz_mat_randajtai env mat).mat.entries i i ∧
      (fmpz_mat_randajtai env mat).mat.entries i i ≤ 2 ^ (env.bits i - 1)) ∧
    (∀ i j, i < mat.r → i < j → j ≤ mat.r →
      |(fmpz_mat_randajtai env mat).mat.entries j i| ≤ 2 ^ env.bits i - 2) := by
  have hmat : (fmpz_mat_randajtai env mat).mat =
      (ajtai_outer env mat.r (List.range mat.r) ⟨mat, []⟩).mat := by
    simp [fmpz_mat_randajtai, hsq]
  refine ⟨fun b x hb1 h0 h1 => ?_, fun b hb1 => ajtai_diag_endpoints b hb1,
    fun i hi => ?_, fun i j hi hij hj => ?_⟩
  · have hd := ajtai_diag_range b x hb1 h0 h1
    refine ⟨hd.1, hd.2, ?_, ?_⟩
    · rw [abs_le]; constructor <;> omega
    · rw [abs_le]; constructor <;> omega
  · have he := (ajtai_outer_entries env mat.r (List.range mat.r) ⟨mat, []⟩
      (List.nodup_range mat.r) i (List.mem_range.mpr hi)).1
    have hx := hr i i (2 ^ env.bits i - 1) (two_pow_sub_one_pos _ (hb i hi))
    have hd := ajtai_diag_range (env.bits i) _ (hb i hi) hx.1 hx.2
    rw [hmat, he]
    exact ⟨rfl, hd.1, hd.2⟩
  · have he := (ajtai_outer_entries env mat.r (List.range mat.r) ⟨mat, []⟩
      (List.nodup_range mat.r) i (List.mem_range.mpr hi)).2 j hij hj
    have hx := hr j i (2 ^ env.bits i - 1) (two_pow_sub_one_pos _ (hb i hi))
    rw [hmat, he, abs_le]
    split <;> constructor <;> omega

theorem fmpz_mat_randajtai_ranges_witness :
    (mat_square 2).c = (mat_square 2).r ∧
    (fmpz_mat_randajtai env_max (mat_square 2)).mat.entries 0 0 = 4 ∧
    (fmpz_mat_randajtai env_max (mat_square 2)).mat.entries 1 0 = -6 ∧
    (∀ i, i < (mat_square 2).r →
      (fmpz_mat_randajtai env_max (mat_square 2)).mat.entries i i =
        ajtai_diag (env_max.randm i i (2 ^ env_max.bits i - 1)) ∧
      1 ≤ (fmpz_mat_randajtai env_max (mat_square 2)).mat.entries i i ∧
      (fmpz_mat_randajtai env_max (mat_square 2)).mat.entries i i ≤
        2 ^ (env_max.bits i - 1)) ∧
    (∀ i j, i < (mat_square 2).r → i < j → j ≤ (mat_square 2).r →
      |(fmpz_mat_randajtai env_max (mat_square 2)).mat.entries j i| ≤
        2 ^ env_max.bits i - 2) :=
  ⟨rfl, by decide, by decide,
    (fmpz_mat_randajtai_ranges env_max (mat_square 2) rfl (fun _ _ => by show (1 : Nat) ≤ 3; decide)
      (fun _ _ m hm => by
        show 0 ≤ m - 1 ∧ m - 1 < m
        omega)).2.2.1,
    (fmpz_mat_randajtai_ranges env_max (mat_square 2) rfl (fun _ _ => by show (1 : Nat) ≤ 3; decide)
      (fun _ _ m hm => by
        show 0 ≤ m - 1 ∧ m - 1 < m
        omega)).2.2.2⟩

end Flint
